import Mathlib

/-!
Verification of the file_builder incremental build engine.

This file gives a shallow embedding of the core data model and operations of
the file_builder Python package (JSON value canonicalization, the operation
record model, the build cache with its serialized file format, the virtual
file-system view, file backups, the directory registry, and the clean entry
point), together with theorems settling the specification claims about them.

Modelling conventions used throughout:
* Python JSON values become the inductive type `FB.Json`.  Python floats are
  modelled by rationals: every finite IEEE double is a rational, and the
  claims under study quantify over values where `NaN` (whose equality is
  irreflexive and whose hash is identity-based in CPython) does not occur.
* Python dicts become association lists with string keys; genuine Python
  dicts never hold duplicate keys, which the well-formedness predicates
  record.
* Exceptions become `Except`/`Option` results.
* The real file system, where an operation consults it, is an explicit
  parameter.
-/

namespace FB

/-- Json models the values admitted by file_builder: the possible results of
Python `json.loads`, plus tuples (which `JsonUtil.is_equal` and
`JsonUtil.sanitize` accept).  Dicts are association lists with string keys.
Floats are modelled as rationals (finite doubles); see the file comment. -/
inductive Json where
  | null : Json
  | bool (b : Bool) : Json
  | int (n : Int) : Json
  | float (q : ℚ) : Json
  | str (s : String) : Json
  | list (xs : List Json) : Json
  | tuple (xs : List Json) : Json
  | dict (kvs : List (String × Json)) : Json

/-- Hashable models the return values of `JsonUtil.to_hashable`: Python
scalars and nested tuples. -/
inductive Hashable where
  | null : Hashable
  | int (n : Int) : Hashable
  | float (q : ℚ) : Hashable
  | str (s : String) : Hashable
  | tuple (xs : List Hashable) : Hashable

mutual
/-- Structural equality test on `Json` (used only to obtain decidable
equality; distinct from the Python-semantics `is_equal`). -/
def Json.beq : Json → Json → Bool
  | .null, .null => true
  | .bool a, .bool b => a == b
  | .int a, .int b => a == b
  | .float a, .float b => a == b
  | .str a, .str b => a == b
  | .list xs, .list ys => Json.beqList xs ys
  | .tuple xs, .tuple ys => Json.beqList xs ys
  | .dict xs, .dict ys => Json.beqDict xs ys
  | _, _ => false

/-- Structural equality test on lists of `Json`. -/
def Json.beqList : List Json → List Json → Bool
  | [], [] => true
  | x :: xs, y :: ys => Json.beq x y && Json.beqList xs ys
  | _, _ => false

/-- Structural equality test on dict entry lists. -/
def Json.beqDict : List (String × Json) → List (String × Json) → Bool
  | [], [] => true
  | (k1, v1) :: xs, (k2, v2) :: ys =>
      k1 == k2 && Json.beq v1 v2 && Json.beqDict xs ys
  | _, _ => false
end

mutual
theorem Json.beq_iff : ∀ a b : Json, Json.beq a b = true ↔ a = b
  | .null, b => by cases b <;> simp [Json.beq]
  | .bool a, b => by cases b <;> simp [Json.beq]
  | .int a, b => by cases b <;> simp [Json.beq]
  | .float a, b => by cases b <;> simp [Json.beq]
  | .str a, b => by cases b <;> simp [Json.beq]
  | .list xs, b => by
      cases b <;> simp [Json.beq]
      exact Json.beqList_iff xs _
  | .tuple xs, b => by
      cases b <;> simp [Json.beq]
      exact Json.beqList_iff xs _
  | .dict xs, b => by
      cases b <;> simp [Json.beq]
      exact Json.beqDict_iff xs _

theorem Json.beqList_iff : ∀ xs ys : List Json, Json.beqList xs ys = true ↔ xs = ys
  | [], ys => by cases ys <;> simp [Json.beqList]
  | x :: xs, ys => by
      cases ys with
      | nil => simp [Json.beqList]
      | cons y ys =>
          simp only [Json.beqList, Bool.and_eq_true, Json.beq_iff x y,
            Json.beqList_iff xs ys, List.cons.injEq]

theorem Json.beqDict_iff :
    ∀ xs ys : List (String × Json), Json.beqDict xs ys = true ↔ xs = ys
  | [], ys => by cases ys <;> simp [Json.beqDict]
  | (k1, v1) :: xs, ys => by
      cases ys with
      | nil => simp [Json.beqDict]
      | cons y ys =>
          obtain ⟨k2, v2⟩ := y
          simp only [Json.beqDict, Bool.and_eq_true, Json.beq_iff v1 v2,
            Json.beqDict_iff xs ys, List.cons.injEq, beq_iff_eq, Prod.mk.injEq,
            and_assoc]
end

instance : DecidableEq Json := fun a b =>
  decidable_of_iff (Json.beq a b = true) (Json.beq_iff a b)

mutual
/-- Structural equality test on `Hashable` (used only to obtain decidable
equality; distinct from the Python-semantics `hashable_eq`). -/
def Hashable.beq : Hashable → Hashable → Bool
  | .null, .null => true
  | .int a, .int b => a == b
  | .float a, .float b => a == b
  | .str a, .str b => a == b
  | .tuple xs, .tuple ys => Hashable.beqList xs ys
  | _, _ => false

/-- Structural equality test on lists of `Hashable`. -/
def Hashable.beqList : List Hashable → List Hashable → Bool
  | [], [] => true
  | x :: xs, y :: ys => Hashable.beq x y && Hashable.beqList xs ys
  | _, _ => false
end

mutual
theorem Hashable.hbeq_iff : ∀ a b : Hashable, Hashable.beq a b = true ↔ a = b
  | .null, b => by cases b <;> simp [Hashable.beq]
  | .int a, b => by cases b <;> simp [Hashable.beq]
  | .float a, b => by cases b <;> simp [Hashable.beq]
  | .str a, b => by cases b <;> simp [Hashable.beq]
  | .tuple xs, b => by
      cases b <;> simp [Hashable.beq]
      exact Hashable.hbeqList_iff xs _

theorem Hashable.hbeqList_iff :
    ∀ xs ys : List Hashable, Hashable.beqList xs ys = true ↔ xs = ys
  | [], ys => by cases ys <;> simp [Hashable.beqList]
  | x :: xs, ys => by
      cases ys with
      | nil => simp [Hashable.beqList]
      | cons y ys =>
          simp only [Hashable.beqList, Bool.and_eq_true, Hashable.hbeq_iff x y,
            Hashable.hbeqList_iff xs ys, List.cons.injEq]
end

instance : DecidableEq Hashable := fun a b =>
  decidable_of_iff (Hashable.beq a b = true) (Hashable.hbeq_iff a b)

/-- Python dictionary read access `m.get(k)` on an association list: the
value of the first binding of the key, if any. -/
def dict_get (kvs : List (String × Json)) (k : String) : Option Json :=
  match kvs with
  | [] => none
  | (k2, v) :: rest => if k2 = k then some v else dict_get rest k

/-- Keys of an association list, in order. -/
def keys (kvs : List (String × Json)) : List String :=
  kvs.map Prod.fst

namespace JsonUtil

mutual
/-- Embedding of `JsonUtil.is_equal` (json_util.py).  Lists and tuples
compare interchangeably and positionally after a length check; dicts compare
as key-value sets after a length check; booleans never equal numbers; the
remaining scalars compare with Python `==` (an int equals a float of the
same mathematical value). -/
def is_equal : Json → Json → Bool
  | .list xs, .list ys => is_equal_seq xs ys
  | .list xs, .tuple ys => is_equal_seq xs ys
  | .tuple xs, .list ys => is_equal_seq xs ys
  | .tuple xs, .tuple ys => is_equal_seq xs ys
  | .list _, _ => false
  | .tuple _, _ => false
  | .dict kv1, .dict kv2 =>
      decide (kv1.length = kv2.length) && is_equal_dict kv1 kv2
  | .dict _, _ => false
  | .bool b1, .bool b2 => b1 == b2
  | .bool _, _ => false
  | _, .bool _ => false
  | .null, .null => true
  | .int n1, .int n2 => n1 == n2
  | .int n1, .float q2 => (n1 : ℚ) == q2
  | .float q1, .int n2 => q1 == (n2 : ℚ)
  | .float q1, .float q2 => q1 == q2
  | .str s1, .str s2 => s1 == s2
  | _, _ => false

/-- Elementwise comparison of sequences, as in the zip loop of
`JsonUtil.is_equal` together with its length check. -/
def is_equal_seq : List Json → List Json → Bool
  | [], [] => true
  | x :: xs, y :: ys => is_equal x y && is_equal_seq xs ys
  | _, _ => false

/-- Key loop of the dict branch of `JsonUtil.is_equal`: every key of the
first dict must be present in the second with an equal value. -/
def is_equal_dict : List (String × Json) → List (String × Json) → Bool
  | [], _ => true
  | (k, v) :: rest, kv2 =>
      (match dict_get kv2 k with
       | some w => is_equal v w
       | none => false) && is_equal_dict rest kv2
end

/-- Sorted key list of a dict, as in `sorted(value.keys())`. -/
def sorted_keys (kvs : List (String × Json)) : List String :=
  (keys kvs).mergeSort (fun a b => decide (a ≤ b))

theorem dict_get_sizeOf {kvs : List (String × Json)} {k : String} {v : Json}
    (h : dict_get kvs k = some v) : sizeOf v < sizeOf kvs := by
  induction kvs with
  | nil => simp [dict_get] at h
  | cons p rest ih =>
      obtain ⟨k2, w⟩ := p
      simp only [dict_get] at h
      split at h
      · simp only [Option.some.injEq] at h
        subst h
        simp
        omega
      · have := ih h
        simp
        omega

mutual
/-- Embedding of `JsonUtil.to_hashable` (json_util.py).  Lists become tuples
tagged with a leading 0; dicts become tuples interleaving the sorted keys
with the encodings of their values; `True` and `False` become the tags
`(1,)` and `(2,)`; other scalars pass through. -/
def to_hashable : Json → Hashable
  | .list xs => .tuple (.int 0 :: to_hashable_list xs)
  | .dict kvs => .tuple (to_hashable_keys kvs (sorted_keys kvs))
  | .bool true => .tuple [.int 1]
  | .bool false => .tuple [.int 2]
  | .null => .null
  | .int n => .int n
  | .float q => .float q
  | .str s => .str s
  | .tuple xs => .tuple (.int 0 :: to_hashable_list xs)
termination_by v => (sizeOf v, 0)
decreasing_by all_goals (simp_wf; first
  | (apply Prod.Lex.left; first | exact dict_get_sizeOf h | omega | (simp; omega))
  | (apply Prod.Lex.right; first | omega | (simp; omega) | simp))

/-- Elementwise `to_hashable` over a sequence. -/
def to_hashable_list : List Json → List Hashable
  | [] => []
  | x :: xs => to_hashable x :: to_hashable_list xs
termination_by xs => (sizeOf xs, 0)
decreasing_by all_goals (simp_wf; first
  | (apply Prod.Lex.left; first | exact dict_get_sizeOf h | omega | (simp; omega))
  | (apply Prod.Lex.right; first | omega | (simp; omega) | simp))

/-- Key loop of the dict branch of `to_hashable`: append each sorted key and
the encoding of its value.  The keys come from the dict itself, so the
lookup always succeeds; a missing key yields a junk `null`. -/
def to_hashable_keys (kvs : List (String × Json)) : List String → List Hashable
  | [] => []
  | k :: ks =>
      .str k ::
      (match h : dict_get kvs k with
       | some v => to_hashable v
       | none => .null) :: to_hashable_keys kvs ks
termination_by ks => (sizeOf kvs, sizeOf ks)
decreasing_by all_goals (simp_wf; first
  | (apply Prod.Lex.left; first | exact dict_get_sizeOf h | omega | (simp; omega))
  | (apply Prod.Lex.right; first | omega | (simp; omega) | simp))
end

mutual
/-- Embedding of `JsonUtil.sanitize` (json_util.py) on inputs whose dict
keys are strings: scalars pass through, lists and tuples become lists of
sanitized elements, dicts keep their (string) keys and sanitize values. -/
def sanitize : Json → Json
  | .null => .null
  | .bool b => .bool b
  | .int n => .int n
  | .float q => .float q
  | .str s => .str s
  | .list xs => .list (sanitize_list xs)
  | .tuple xs => .list (sanitize_list xs)
  | .dict kvs => .dict (sanitize_dict kvs)

/-- Elementwise `sanitize` over a sequence. -/
def sanitize_list : List Json → List Json
  | [] => []
  | x :: xs => sanitize x :: sanitize_list xs

/-- Entrywise `sanitize` over dict entries with string keys
(`_key_to_str` is the identity on strings). -/
def sanitize_dict : List (String × Json) → List (String × Json)
  | [] => []
  | (k, v) :: rest => (k, sanitize v) :: sanitize_dict rest
end

end JsonUtil

mutual
/-- Model of CPython `==` on the results of `to_hashable`: tuples compare
elementwise, numbers compare mathematically (an int can equal a float),
strings compare as strings, and values of different kinds are unequal.
This is documented CPython semantics, not repository code. -/
def hashable_eq : Hashable → Hashable → Bool
  | .tuple xs, .tuple ys => hashable_eq_list xs ys
  | .tuple _, _ => false
  | _, .tuple _ => false
  | .null, .null => true
  | .int a, .int b => a == b
  | .int a, .float q => (a : ℚ) == q
  | .float q, .int a => q == (a : ℚ)
  | .float a, .float b => a == b
  | .str a, .str b => a == b
  | _, _ => false

/-- Elementwise CPython tuple equality. -/
def hashable_eq_list : List Hashable → List Hashable → Bool
  | [], [] => true
  | x :: xs, y :: ys => hashable_eq x y && hashable_eq_list xs ys
  | _, _ => false
end

/-- Model of CPython `hash` on ints on a 64-bit platform, as documented in
the Python reference (numeric hashing): reduction modulo the Mersenne prime
2^61 - 1, preserving sign, with -1 replaced by -2.  This is documented
CPython semantics, not repository code. -/
def pyHashInt (n : Int) : Int :=
  let M : Int := 2 ^ 61 - 1
  let r : Int := if 0 ≤ n then n % M else -((-n) % M)
  if r = -1 then -2 else r

/-- Model of CPython `hash` on hashable encodings.  Only the int case is
modelled (string hashing is randomized per process, and the claims under
study only need integer hashing); other kinds are left opaque as `none`. -/
def pyHash : Hashable → Option Int
  | .int n => some (pyHashInt n)
  | _ => none

mutual
/-- Decides whether a value is sanitized: a possible result of
`JsonUtil.sanitize`, with no tuples and no duplicate dict keys. -/
def is_sanitized : Json → Bool
  | .null => true
  | .bool _ => true
  | .int _ => true
  | .float _ => true
  | .str _ => true
  | .list xs => is_sanitized_list xs
  | .tuple _ => false
  | .dict kvs => decide (keys kvs).Nodup && is_sanitized_dict kvs

/-- Elementwise sanitization check over a sequence. -/
def is_sanitized_list : List Json → Bool
  | [] => true
  | x :: xs => is_sanitized x && is_sanitized_list xs

/-- Entrywise sanitization check over dict entries. -/
def is_sanitized_dict : List (String × Json) → Bool
  | [] => true
  | (_, v) :: rest => is_sanitized v && is_sanitized_dict rest
end

mutual
/-- Decides whether every dict anywhere in a value has no duplicate keys,
the invariant every value built from real Python dicts satisfies.  Unlike
`is_sanitized` this allows tuples. -/
def keys_ok : Json → Bool
  | .null => true
  | .bool _ => true
  | .int _ => true
  | .float _ => true
  | .str _ => true
  | .list xs => keys_ok_list xs
  | .tuple xs => keys_ok_list xs
  | .dict kvs => decide (keys kvs).Nodup && keys_ok_dict kvs

/-- Elementwise key check over a sequence. -/
def keys_ok_list : List Json → Bool
  | [] => true
  | x :: xs => keys_ok x && keys_ok_list xs

/-- Entrywise key check over dict entries. -/
def keys_ok_dict : List (String × Json) → Bool
  | [] => true
  | (_, v) :: rest => keys_ok v && keys_ok_dict rest
end

namespace JsonUtil

/-- Encoding of the value of key `k` inside the dict branch of
`to_hashable` (the `value[key]` access of the source). -/
def to_hashable_entry (kvs : List (String × Json)) (k : String) : Hashable :=
  match dict_get kvs k with
  | some v => to_hashable v
  | none => .null

theorem to_hashable_keys_nil (kvs : List (String × Json)) :
    to_hashable_keys kvs [] = [] := by
  simp [to_hashable_keys]

theorem to_hashable_keys_cons (kvs : List (String × Json)) (k : String)
    (ks : List String) :
    to_hashable_keys kvs (k :: ks) =
      .str k :: to_hashable_entry kvs k :: to_hashable_keys kvs ks := by
  rw [to_hashable_keys, to_hashable_entry]
  cases hget : dict_get kvs k <;> simp [hget]

theorem dict_get_mem {kvs : List (String × Json)} {k : String} {v : Json}
    (h : dict_get kvs k = some v) : (k, v) ∈ kvs := by
  induction kvs with
  | nil => simp [dict_get] at h
  | cons p rest ih =>
      obtain ⟨k2, w⟩ := p
      simp only [dict_get] at h
      split at h
      · simp only [Option.some.injEq] at h
        subst h
        rename_i hk
        subst hk
        exact List.mem_cons_self _ _
      · exact List.mem_cons_of_mem _ (ih h)

theorem dict_get_of_mem {kvs : List (String × Json)} {k : String} {v : Json}
    (hnd : (keys kvs).Nodup) (h : (k, v) ∈ kvs) : dict_get kvs k = some v := by
  induction kvs with
  | nil => simp at h
  | cons p rest ih =>
      obtain ⟨k2, w⟩ := p
      simp only [keys, List.map_cons, List.nodup_cons] at hnd
      rcases List.mem_cons.mp h with heq | hmem
      · cases heq
        simp [dict_get]
      · simp only [dict_get]
        rw [if_neg]
        · exact ih hnd.2 hmem
        · intro hk
          subst hk
          exact hnd.1 (List.mem_map_of_mem Prod.fst hmem)

theorem mem_keys_iff_dict_get {kvs : List (String × Json)} {k : String} :
    k ∈ keys kvs ↔ ∃ v, dict_get kvs k = some v := by
  induction kvs with
  | nil => simp [keys, dict_get]
  | cons p rest ih =>
      obtain ⟨k2, w⟩ := p
      simp only [keys, List.map_cons, List.mem_cons, dict_get]
      by_cases hk : k2 = k
      · subst hk
        simp
      · simp only [if_neg hk]
        constructor
        · intro h
          rcases h with h | h
          · exact absurd h.symm hk
          · exact (ih.mp (by simpa [keys] using h))
        · intro h
          exact Or.inr (by simpa [keys] using ih.mpr h)

theorem sorted_keys_perm (kvs : List (String × Json)) :
    (sorted_keys kvs).Perm (keys kvs) :=
  List.mergeSort_perm (keys kvs) _

theorem sorted_keys_sorted (kvs : List (String × Json)) :
    List.Sorted (· ≤ ·) (sorted_keys kvs) := by
  have h := @List.sorted_mergeSort String
    (fun a b : String => decide (a ≤ b))
    (fun a b c hab hbc => by
      simp only [decide_eq_true_eq] at *
      exact le_trans hab hbc)
    (fun a b => by
      simp only [Bool.or_eq_true, decide_eq_true_eq]
      exact le_total a b)
    (keys kvs)
  exact h.imp (fun hab => by simpa using hab)

theorem sorted_keys_mem (kvs : List (String × Json)) (k : String) :
    k ∈ sorted_keys kvs ↔ k ∈ keys kvs :=
  (sorted_keys_perm kvs).mem_iff

theorem sorted_keys_length (kvs : List (String × Json)) :
    (sorted_keys kvs).length = kvs.length := by
  rw [(sorted_keys_perm kvs).length_eq]
  simp [keys]

theorem sorted_keys_eq_of_same_members {kv1 kv2 : List (String × Json)}
    (h1 : (keys kv1).Nodup) (h2 : (keys kv2).Nodup)
    (h : ∀ k, k ∈ keys kv1 ↔ k ∈ keys kv2) :
    sorted_keys kv1 = sorted_keys kv2 := by
  have hperm : (keys kv1).Perm (keys kv2) := by
    apply List.perm_of_nodup_nodup_toFinset_eq h1 h2
    ext k
    simp [h k]
  exact List.eq_of_perm_of_sorted
    ((sorted_keys_perm kv1).trans (hperm.trans (sorted_keys_perm kv2).symm))
    (sorted_keys_sorted kv1) (sorted_keys_sorted kv2)

theorem is_equal_dict_iff {kv1 kv2 : List (String × Json)} :
    is_equal_dict kv1 kv2 = true ↔
      ∀ p ∈ kv1, ∃ w, dict_get kv2 p.1 = some w ∧ is_equal p.2 w = true := by
  induction kv1 with
  | nil => simp [is_equal_dict]
  | cons p rest ih =>
      obtain ⟨k, v⟩ := p
      rw [is_equal_dict]
      rw [Bool.and_eq_true, ih]
      constructor
      · rintro ⟨hhead, htail⟩
        intro q hq
        rcases List.mem_cons.mp hq with rfl | hq
        · cases hget : dict_get kv2 k with
          | none => rw [hget] at hhead; exact absurd hhead (by simp)
          | some w =>
              rw [hget] at hhead
              exact ⟨w, rfl, hhead⟩
        · exact htail q hq
      · intro hall
        constructor
        · obtain ⟨w, hw, heq⟩ := hall (k, v) (List.mem_cons_self _ _)
          rw [hw]
          exact heq
        · intro q hq
          exact hall q (List.mem_cons_of_mem _ hq)

theorem hashable_eq_str {a b : String} :
    hashable_eq (.str a) (.str b) = true ↔ a = b := by
  simp [hashable_eq]

/-- Decomposition of the equality of two interleaved key-value encodings:
the key lists must agree, and the value encodings must agree at each key. -/
theorem keys_enc_iff (kv1 kv2 : List (String × Json)) :
    ∀ ks1 ks2 : List String,
      hashable_eq_list (to_hashable_keys kv1 ks1) (to_hashable_keys kv2 ks2)
        = true ↔
      (ks1 = ks2 ∧ ∀ k ∈ ks1,
        hashable_eq (to_hashable_entry kv1 k) (to_hashable_entry kv2 k)
          = true) := by
  intro ks1
  induction ks1 with
  | nil =>
      intro ks2
      cases ks2 with
      | nil => simp [to_hashable_keys_nil, hashable_eq_list]
      | cons k ks =>
          simp [to_hashable_keys_nil, to_hashable_keys_cons, hashable_eq_list]
  | cons k1 ks1 ih =>
      intro ks2
      cases ks2 with
      | nil =>
          simp [to_hashable_keys_nil, to_hashable_keys_cons, hashable_eq_list]
      | cons k2 ks2 =>
          rw [to_hashable_keys_cons, to_hashable_keys_cons]
          rw [hashable_eq_list, hashable_eq_list]
          rw [Bool.and_eq_true, Bool.and_eq_true, ih ks2, hashable_eq_str]
          constructor
          · rintro ⟨rfl, hent, rfl, hall⟩
            refine ⟨rfl, ?_⟩
            intro k hk
            rcases List.mem_cons.mp hk with rfl | hk
            · exact hent
            · exact hall k hk
          · rintro ⟨heq, hall⟩
            obtain ⟨rfl, rfl⟩ : k1 = k2 ∧ ks1 = ks2 := by
              constructor
              · exact (List.cons.injEq .. ▸ heq).1
              · exact (List.cons.injEq .. ▸ heq).2
            exact ⟨rfl, hall k1 (List.mem_cons_self _ _),
              rfl, fun k hk => hall k (List.mem_cons_of_mem _ hk)⟩

theorem mem_dict_sizeOf {kvs : List (String × Json)} {k : String} {v : Json}
    (h : (k, v) ∈ kvs) : sizeOf v < sizeOf kvs := by
  have := List.sizeOf_lt_of_mem h
  simp at this
  omega

theorem is_sanitized_list_mem :
    ∀ {xs : List Json}, is_sanitized_list xs = true →
      ∀ {x : Json}, x ∈ xs → is_sanitized x = true := by
  intro xs
  induction xs with
  | nil => intro _ x hx; simp at hx
  | cons y ys ih =>
      intro h x hx
      simp only [is_sanitized_list, Bool.and_eq_true] at h
      rcases List.mem_cons.mp hx with rfl | hx
      · exact h.1
      · exact ih h.2 hx

theorem is_sanitized_dict_mem :
    ∀ {kvs : List (String × Json)}, is_sanitized_dict kvs = true →
      ∀ {k : String} {v : Json}, (k, v) ∈ kvs → is_sanitized v = true := by
  intro kvs
  induction kvs with
  | nil => intro _ k v hx; simp at hx
  | cons p rest ih =>
      obtain ⟨k2, w⟩ := p
      intro h k v hx
      simp only [is_sanitized_dict, Bool.and_eq_true] at h
      rcases List.mem_cons.mp hx with heq | hx
      · cases heq
        exact h.1
      · exact ih h.2 hx

theorem seq_aux (n : Nat)
    (ih : ∀ v1 v2 : Json, sizeOf v1 ≤ n → is_sanitized v1 = true →
      is_sanitized v2 = true →
      (hashable_eq (to_hashable v1) (to_hashable v2) = true ↔
        is_equal v1 v2 = true)) :
    ∀ xs ys : List Json, sizeOf xs ≤ n → is_sanitized_list xs = true →
      is_sanitized_list ys = true →
      (hashable_eq_list (to_hashable_list xs) (to_hashable_list ys) = true ↔
        is_equal_seq xs ys = true) := by
  intro xs
  induction xs with
  | nil =>
      intro ys _ _ _
      cases ys <;>
        simp [to_hashable_list, hashable_eq_list, is_equal_seq]
  | cons x xs ihx =>
      intro ys hsz hs1 hs2
      cases ys with
      | nil => simp [to_hashable_list, hashable_eq_list, is_equal_seq]
      | cons y ys =>
          simp only [to_hashable_list, hashable_eq_list, is_equal_seq,
            Bool.and_eq_true]
          simp only [is_sanitized_list, Bool.and_eq_true] at hs1 hs2
          have hx : sizeOf x ≤ n := by simp at hsz; omega
          have hxs : sizeOf xs ≤ n := by simp at hsz; omega
          exact and_congr (ih x y hx hs1.1 hs2.1) (ihx ys hxs hs1.2 hs2.2)

theorem dict_aux (n : Nat)
    (ih : ∀ v1 v2 : Json, sizeOf v1 ≤ n → is_sanitized v1 = true →
      is_sanitized v2 = true →
      (hashable_eq (to_hashable v1) (to_hashable v2) = true ↔
        is_equal v1 v2 = true)) :
    ∀ kv1 kv2 : List (String × Json), sizeOf kv1 ≤ n →
      (keys kv1).Nodup → (keys kv2).Nodup →
      is_sanitized_dict kv1 = true → is_sanitized_dict kv2 = true →
      (hashable_eq_list (to_hashable_keys kv1 (sorted_keys kv1))
          (to_hashable_keys kv2 (sorted_keys kv2)) = true ↔
        (kv1.length = kv2.length ∧ is_equal_dict kv1 kv2 = true)) := by
  intro kv1 kv2 hsz hnd1 hnd2 hs1 hs2
  rw [keys_enc_iff]
  constructor
  · rintro ⟨hks, hent⟩
    constructor
    · rw [← sorted_keys_length kv1, ← sorted_keys_length kv2, hks]
    · rw [is_equal_dict_iff]
      rintro ⟨k, v⟩ hmem
      have hget1 : dict_get kv1 k = some v := dict_get_of_mem hnd1 hmem
      have hk1 : k ∈ sorted_keys kv1 := by
        rw [sorted_keys_mem, mem_keys_iff_dict_get]
        exact ⟨v, hget1⟩
      have hk2 : k ∈ keys kv2 := by
        rw [← sorted_keys_mem, ← hks]
        exact hk1
      obtain ⟨w, hget2⟩ := mem_keys_iff_dict_get.mp hk2
      have hentk := hent k hk1
      rw [to_hashable_entry, to_hashable_entry, hget1, hget2] at hentk
      have hvw : is_equal v w = true := by
        refine (ih v w ?_ ?_ ?_).mp hentk
        · have := mem_dict_sizeOf hmem
          omega
        · exact is_sanitized_dict_mem hs1 hmem
        · exact is_sanitized_dict_mem hs2 (dict_get_mem hget2)
      exact ⟨w, hget2, hvw⟩
  · rintro ⟨hlen, hdict⟩
    have hdict' := is_equal_dict_iff.mp hdict
    have hsub : ∀ k, k ∈ keys kv1 → k ∈ keys kv2 := by
      intro k hk
      obtain ⟨v, hget1⟩ := mem_keys_iff_dict_get.mp hk
      obtain ⟨w, hget2, _⟩ := hdict' (k, v) (dict_get_mem hget1)
      exact mem_keys_iff_dict_get.mpr ⟨w, hget2⟩
    have hmemiff : ∀ k, k ∈ keys kv1 ↔ k ∈ keys kv2 := by
      have hcard : (keys kv1).toFinset = (keys kv2).toFinset := by
        apply Finset.eq_of_subset_of_card_le
        · intro k hk
          rw [List.mem_toFinset] at *
          exact hsub k (by simpa using hk)
        · rw [List.toFinset_card_of_nodup hnd1,
            List.toFinset_card_of_nodup hnd2]
          simp [keys, hlen]
      intro k
      rw [← List.mem_toFinset, ← List.mem_toFinset, hcard]
    have hks : sorted_keys kv1 = sorted_keys kv2 :=
      sorted_keys_eq_of_same_members hnd1 hnd2 hmemiff
    refine ⟨hks, ?_⟩
    intro k hk
    obtain ⟨v, hget1⟩ := mem_keys_iff_dict_get.mp ((sorted_keys_mem kv1 k).mp hk)
    obtain ⟨w, hget2, hvw⟩ := hdict' (k, v) (dict_get_mem hget1)
    rw [to_hashable_entry, to_hashable_entry, hget1, hget2]
    refine (ih v w ?_ ?_ ?_).mpr hvw
    · have := mem_dict_sizeOf (dict_get_mem hget1)
      omega
    · exact is_sanitized_dict_mem hs1 (dict_get_mem hget1)
    · exact is_sanitized_dict_mem hs2 (dict_get_mem hget2)

theorem to_hashable_iff_aux :
    ∀ n : Nat, ∀ v1 v2 : Json, sizeOf v1 ≤ n →
      is_sanitized v1 = true → is_sanitized v2 = true →
      (hashable_eq (to_hashable v1) (to_hashable v2) = true ↔
        is_equal v1 v2 = true) := by
  intro n
  induction n with
  | zero =>
      intro v1 v2 hsz
      exact absurd hsz (by cases v1 <;> simp <;> omega)
  | succ n ih =>
      intro v1 v2 hsz hs1 hs2
      cases v1 with
      | null =>
          cases v2 with
          | bool b2 =>
              cases b2 <;>
                simp [to_hashable, hashable_eq, is_equal, hashable_eq_list]
          | tuple ys => simp [is_sanitized] at hs2
          | _ => simp [to_hashable, hashable_eq, is_equal, hashable_eq_list]
      | bool b1 =>
          cases v2 with
          | bool b2 =>
              cases b1 <;> cases b2 <;>
                simp [to_hashable, hashable_eq, is_equal, hashable_eq_list]
          | list xs =>
              cases b1 <;>
                simp [to_hashable, hashable_eq, is_equal, hashable_eq_list]
          | dict kvs =>
              cases hsk : sorted_keys kvs with
              | nil =>
                  cases b1 <;>
                    simp [to_hashable, hashable_eq, is_equal, hsk,
                      to_hashable_keys_nil, hashable_eq_list]
              | cons k ks =>
                  cases b1 <;>
                    simp [to_hashable, hashable_eq, is_equal, hsk,
                      to_hashable_keys_cons, hashable_eq_list]
          | _ =>
              cases b1 <;>
                simp [to_hashable, hashable_eq, is_equal, hashable_eq_list]
      | int n1 =>
          cases v2 with
          | bool b2 =>
              cases b2 <;>
                simp [to_hashable, hashable_eq, is_equal, hashable_eq_list]
          | tuple ys => simp [is_sanitized] at hs2
          | _ => simp [to_hashable, hashable_eq, is_equal, hashable_eq_list]
      | float q1 =>
          cases v2 with
          | bool b2 =>
              cases b2 <;>
                simp [to_hashable, hashable_eq, is_equal, hashable_eq_list]
          | tuple ys => simp [is_sanitized] at hs2
          | _ => simp [to_hashable, hashable_eq, is_equal, hashable_eq_list]
      | str s1 =>
          cases v2 with
          | bool b2 =>
              cases b2 <;>
                simp [to_hashable, hashable_eq, is_equal, hashable_eq_list]
          | tuple ys => simp [is_sanitized] at hs2
          | _ => simp [to_hashable, hashable_eq, is_equal, hashable_eq_list]
      | list xs =>
          cases v2 with
          | list ys =>
              have hb : sizeOf xs ≤ n := by simp at hsz; omega
              simp only [is_sanitized] at hs1 hs2
              have := seq_aux n ih xs ys hb hs1 hs2
              simpa [to_hashable, hashable_eq, is_equal, hashable_eq_list]
                using this
          | bool b2 =>
              cases b2 <;>
                simp [to_hashable, hashable_eq, is_equal, hashable_eq_list]
          | dict kvs =>
              cases hsk : sorted_keys kvs with
              | nil =>
                  simp [to_hashable, hashable_eq, is_equal, hsk,
                    to_hashable_keys_nil, hashable_eq_list]
              | cons k ks =>
                  simp [to_hashable, hashable_eq, is_equal, hsk,
                    to_hashable_keys_cons, hashable_eq_list]
          | tuple ys => simp [is_sanitized] at hs2
          | _ => simp [to_hashable, hashable_eq, is_equal, hashable_eq_list]
      | tuple xs => simp [is_sanitized] at hs1
      | dict kv1 =>
          cases v2 with
          | dict kv2 =>
              have hb : sizeOf kv1 ≤ n := by simp at hsz; omega
              simp only [is_sanitized, Bool.and_eq_true, decide_eq_true_eq]
                at hs1 hs2
              have := dict_aux n ih kv1 kv2 hb hs1.1 hs2.1 hs1.2 hs2.2
              simp only [to_hashable, hashable_eq, is_equal,
                Bool.and_eq_true, decide_eq_true_eq]
              rw [this]
          | bool b2 =>
              cases hsk : sorted_keys kv1 with
              | nil =>
                  cases b2 <;>
                    simp [to_hashable, hashable_eq, is_equal, hsk,
                      to_hashable_keys_nil, hashable_eq_list]
              | cons k ks =>
                  cases b2 <;>
                    simp [to_hashable, hashable_eq, is_equal, hsk,
                      to_hashable_keys_cons, hashable_eq_list]
          | list ys =>
              cases hsk : sorted_keys kv1 with
              | nil =>
                  simp [to_hashable, hashable_eq, is_equal, hsk,
                    to_hashable_keys_nil, hashable_eq_list]
              | cons k ks =>
                  simp [to_hashable, hashable_eq, is_equal, hsk,
                    to_hashable_keys_cons, hashable_eq_list]
          | tuple ys => simp [is_sanitized] at hs2
          | _ => simp [to_hashable, hashable_eq, is_equal, hashable_eq_list]

/-- Central equivalence behind the hashable-encoding contract: for sanitized
values, the `to_hashable` encodings are equal in the Python sense exactly
when `is_equal` holds. -/
theorem to_hashable_iff (v1 v2 : Json)
    (h1 : is_sanitized v1 = true) (h2 : is_sanitized v2 = true) :
    hashable_eq (to_hashable v1) (to_hashable v2) = true ↔
      is_equal v1 v2 = true :=
  to_hashable_iff_aux (sizeOf v1) v1 v2 le_rfl h1 h2

theorem sanitize_list_eq_map : ∀ xs : List Json, sanitize_list xs = xs.map sanitize
  | [] => by simp [sanitize_list]
  | x :: xs => by
      simp only [sanitize_list, List.map_cons]
      rw [sanitize_list_eq_map xs]

theorem sanitize_dict_eq_map :
    ∀ kvs : List (String × Json),
      sanitize_dict kvs = kvs.map (fun p => (p.1, sanitize p.2))
  | [] => by simp [sanitize_dict]
  | (k, v) :: rest => by
      simp only [sanitize_dict, List.map_cons]
      rw [sanitize_dict_eq_map rest]

mutual
theorem sanitize_idem : ∀ v : Json, sanitize (sanitize v) = sanitize v
  | .null => by simp [sanitize]
  | .bool b => by simp [sanitize]
  | .int n => by simp [sanitize]
  | .float q => by simp [sanitize]
  | .str s => by simp [sanitize]
  | .list xs => by
      simp only [sanitize]
      rw [sanitize_list_idem xs]
  | .tuple xs => by
      simp only [sanitize]
      rw [sanitize_list_idem xs]
  | .dict kvs => by
      simp only [sanitize]
      rw [sanitize_dict_idem kvs]

theorem sanitize_list_idem :
    ∀ xs : List Json, sanitize_list (sanitize_list xs) = sanitize_list xs
  | [] => by simp [sanitize_list]
  | x :: xs => by
      simp only [sanitize_list, List.cons.injEq]
      exact ⟨sanitize_idem x, sanitize_list_idem xs⟩

theorem sanitize_dict_idem :
    ∀ kvs : List (String × Json),
      sanitize_dict (sanitize_dict kvs) = sanitize_dict kvs
  | [] => by simp [sanitize_dict]
  | (k, v) :: rest => by
      simp only [sanitize_dict, List.cons.injEq]
      exact ⟨by rw [sanitize_idem v], sanitize_dict_idem rest⟩
end

theorem keys_ok_list_mem :
    ∀ {xs : List Json}, keys_ok_list xs = true →
      ∀ {x : Json}, x ∈ xs → keys_ok x = true := by
  intro xs
  induction xs with
  | nil => intro _ x hx; simp at hx
  | cons y ys ih =>
      intro h x hx
      simp only [keys_ok_list, Bool.and_eq_true] at h
      rcases List.mem_cons.mp hx with rfl | hx
      · exact h.1
      · exact ih h.2 hx

theorem keys_ok_dict_mem :
    ∀ {kvs : List (String × Json)}, keys_ok_dict kvs = true →
      ∀ {k : String} {v : Json}, (k, v) ∈ kvs → keys_ok v = true := by
  intro kvs
  induction kvs with
  | nil => intro _ k v hx; simp at hx
  | cons p rest ih =>
      obtain ⟨k2, w⟩ := p
      intro h k v hx
      simp only [keys_ok_dict, Bool.and_eq_true] at h
      rcases List.mem_cons.mp hx with heq | hx
      · cases heq
        exact h.1
      · exact ih h.2 hx

theorem sanitize_seq_aux (n : Nat)
    (ih : ∀ v : Json, sizeOf v ≤ n → keys_ok v = true →
      is_equal (sanitize v) v = true) :
    ∀ xs : List Json, sizeOf xs ≤ n → keys_ok_list xs = true →
      is_equal_seq (sanitize_list xs) xs = true := by
  intro xs
  induction xs with
  | nil => intro _ _; simp [sanitize_list, is_equal_seq]
  | cons x xs ihx =>
      intro hsz h
      simp only [keys_ok_list, Bool.and_eq_true] at h
      simp only [sanitize_list, is_equal_seq, Bool.and_eq_true]
      refine ⟨ih x ?_ h.1, ihx ?_ h.2⟩
      · simp at hsz; omega
      · simp at hsz; omega

theorem sanitize_dict_aux (n : Nat)
    (ih : ∀ v : Json, sizeOf v ≤ n → keys_ok v = true →
      is_equal (sanitize v) v = true) :
    ∀ kvs : List (String × Json), sizeOf kvs ≤ n → (keys kvs).Nodup →
      keys_ok_dict kvs = true →
      is_equal_dict (sanitize_dict kvs) kvs = true := by
  intro kvs hsz hnd h
  rw [is_equal_dict_iff]
  rintro ⟨k, w⟩ hmem
  rw [sanitize_dict_eq_map] at hmem
  obtain ⟨⟨k2, v⟩, hv, heq⟩ := List.mem_map.mp hmem
  obtain ⟨rfl, rfl⟩ : k2 = k ∧ sanitize v = w := by
    constructor
    · exact congrArg Prod.fst heq
    · exact congrArg Prod.snd heq
  refine ⟨v, dict_get_of_mem hnd hv, ?_⟩
  refine ih v ?_ (keys_ok_dict_mem h hv)
  have := mem_dict_sizeOf hv
  omega

theorem sanitize_is_equal_aux :
    ∀ n : Nat, ∀ v : Json, sizeOf v ≤ n → keys_ok v = true →
      is_equal (sanitize v) v = true := by
  intro n
  induction n with
  | zero =>
      intro v hsz
      exact absurd hsz (by cases v <;> simp <;> omega)
  | succ n ih =>
      intro v hsz h
      cases v with
      | null => simp [sanitize, is_equal]
      | bool b => simp [sanitize, is_equal]
      | int m => simp [sanitize, is_equal]
      | float q => simp [sanitize, is_equal]
      | str s => simp [sanitize, is_equal]
      | list xs =>
          simp only [sanitize, is_equal]
          refine sanitize_seq_aux n ih xs ?_ ?_
          · simp at hsz; omega
          · simpa [keys_ok] using h
      | tuple xs =>
          simp only [sanitize, is_equal]
          refine sanitize_seq_aux n ih xs ?_ ?_
          · simp at hsz; omega
          · simpa [keys_ok] using h
      | dict kvs =>
          simp only [keys_ok, Bool.and_eq_true, decide_eq_true_eq] at h
          simp only [sanitize, is_equal, Bool.and_eq_true, decide_eq_true_eq]
          constructor
          · rw [sanitize_dict_eq_map]
            simp
          · refine sanitize_dict_aux n ih kvs ?_ h.1 h.2
            simp at hsz; omega

end JsonUtil

/-- Claim C2 counterexample: the Python hashes of the hashable encodings of
the sanitized values 0 and 2^61 - 1 coincide (CPython reduces int hashes
modulo the Mersenne prime 2^61 - 1), yet `is_equal` rejects the pair, so
hash equality of the encodings does not imply `is_equal`. -/
theorem C2_counterexample :
    pyHash (JsonUtil.to_hashable (Json.int 0)) =
      pyHash (JsonUtil.to_hashable (Json.int (2 ^ 61 - 1))) ∧
    JsonUtil.is_equal (Json.int 0) (Json.int (2 ^ 61 - 1)) = false := by
  constructor
  · rw [show JsonUtil.to_hashable (Json.int 0) = Hashable.int 0 from by
      simp [JsonUtil.to_hashable]]
    rw [show JsonUtil.to_hashable (Json.int (2 ^ 61 - 1)) =
        Hashable.int (2 ^ 61 - 1) from by simp [JsonUtil.to_hashable]]
    simp only [pyHash, pyHashInt]
    norm_num
  · simp [JsonUtil.is_equal]

/-- Claim C2 (amended): for sanitized values `v1` and `v2`, the hashable
encodings `to_hashable v1` and `to_hashable v2` are equal (in the Python
`==` sense) if and only if `is_equal v1 v2`; in particular a boolean is
never encoding-equal to a number, while a mathematically equal int and
float are encoding-equal.  (The original claim compared Python hashes of
the encodings, which collide on distinct ints.) -/
theorem C2_amended (v1 v2 : Json)
    (h1 : is_sanitized v1 = true) (h2 : is_sanitized v2 = true) :
    hashable_eq (JsonUtil.to_hashable v1) (JsonUtil.to_hashable v2) = true ↔
      JsonUtil.is_equal v1 v2 = true :=
  JsonUtil.to_hashable_iff v1 v2 h1 h2

theorem C2_witness :
    is_sanitized (Json.dict [("a", Json.int 1)]) = true ∧
    is_sanitized (Json.dict [("a", Json.float 1)]) = true ∧
    (hashable_eq (JsonUtil.to_hashable (Json.dict [("a", Json.int 1)]))
        (JsonUtil.to_hashable (Json.dict [("a", Json.float 1)])) = true ↔
      JsonUtil.is_equal (Json.dict [("a", Json.int 1)])
        (Json.dict [("a", Json.float 1)]) = true) := by
  have hx : is_sanitized (Json.dict [("a", Json.int 1)]) = true := by
    simp [is_sanitized, is_sanitized_dict, keys]
  have hy : is_sanitized (Json.dict [("a", Json.float 1)]) = true := by
    simp [is_sanitized, is_sanitized_dict, keys]
  exact ⟨hx, hy, C2_amended _ _ hx hy⟩

/-- Claim C10: on values built from dicts with distinct string keys, lists,
tuples and scalars (the values real Python dicts can produce),
`JsonUtil.sanitize` is idempotent and `is_equal (sanitize v) v` holds
(tuples become lists, which `is_equal` identifies with tuples). -/
theorem C10_sanitize (v : Json) (h : keys_ok v = true) :
    JsonUtil.sanitize (JsonUtil.sanitize v) = JsonUtil.sanitize v ∧
      JsonUtil.is_equal (JsonUtil.sanitize v) v = true :=
  ⟨JsonUtil.sanitize_idem v,
    JsonUtil.sanitize_is_equal_aux (sizeOf v) v le_rfl h⟩

theorem C10_witness :
    keys_ok (Json.dict [("a", Json.tuple [Json.int 1, Json.bool true])]) = true ∧
    (JsonUtil.sanitize (JsonUtil.sanitize
        (Json.dict [("a", Json.tuple [Json.int 1, Json.bool true])])) =
      JsonUtil.sanitize
        (Json.dict [("a", Json.tuple [Json.int 1, Json.bool true])]) ∧
      JsonUtil.is_equal (JsonUtil.sanitize
          (Json.dict [("a", Json.tuple [Json.int 1, Json.bool true])]))
        (Json.dict [("a", Json.tuple [Json.int 1, Json.bool true])]) = true) := by
  have hk : keys_ok
      (Json.dict [("a", Json.tuple [Json.int 1, Json.bool true])]) = true := by
    simp [keys_ok, keys_ok_dict, keys_ok_list, keys]
  exact ⟨hk, C10_sanitize _ hk⟩

/-- FileComparison models the `FileComparison` enum (file_comparison.py). -/
inductive FileComparison where
  | METADATA : FileComparison
  | HASH : FileComparison
deriving DecidableEq

/-- Name of a comparison, as in Python `FileComparison.name`. -/
def FileComparison.nameStr : FileComparison → String
  | .METADATA => "METADATA"
  | .HASH => "HASH"

/-- Enum lookup `FileComparison[name]`; a `KeyError` becomes `none`. -/
def file_comparison_of_name : String → Option FileComparison
  | "METADATA" => some .METADATA
  | "HASH" => some .HASH
  | _ => none

/-- Op models the `Operation` class hierarchy (operation.py): simple
operations, build file operations, and subbuild operations, with the fields
of the Python records.  Values that Python leaves as `None` (return value,
comparison result of an unfinished or raised operation) are `Json.null`. -/
inductive Op where
  | simple (name : String) (args : Json) (return_value : Json)
      (exception_type : Option String) (is_finished : Bool) : Op
  | build_file (filename : String) (file_comparison : FileComparison)
      (func_name : String) (args : Json) (kwargs : Json)
      (suboperations : List Op) (return_value : Json)
      (file_comparison_result : Json) (raised : Bool) (setup_failed : Bool)
      (is_finished : Bool) : Op
  | subbuild (func_name : String) (args : Json) (kwargs : Json)
      (suboperations : List Op) (return_value : Json) (raised : Bool)
      (setup_failed : Bool) (is_finished : Bool) : Op

mutual
/-- Structural equality test on `Op`, for decidable equality. -/
def Op.beq : Op → Op → Bool
  | .simple n1 a1 r1 e1 f1, .simple n2 a2 r2 e2 f2 =>
      n1 == n2 && a1 == a2 && r1 == r2 && e1 == e2 && f1 == f2
  | .build_file fn1 c1 g1 a1 k1 s1 r1 cr1 ra1 sf1 fi1,
    .build_file fn2 c2 g2 a2 k2 s2 r2 cr2 ra2 sf2 fi2 =>
      fn1 == fn2 && c1 == c2 && g1 == g2 && a1 == a2 && k1 == k2 &&
        Op.beqList s1 s2 && r1 == r2 && cr1 == cr2 && ra1 == ra2 &&
        sf1 == sf2 && fi1 == fi2
  | .subbuild g1 a1 k1 s1 r1 ra1 sf1 fi1, .subbuild g2 a2 k2 s2 r2 ra2 sf2 fi2 =>
      g1 == g2 && a1 == a2 && k1 == k2 && Op.beqList s1 s2 && r1 == r2 &&
        ra1 == ra2 && sf1 == sf2 && fi1 == fi2
  | _, _ => false

/-- Structural equality test on lists of `Op`. -/
def Op.beqList : List Op → List Op → Bool
  | [], [] => true
  | x :: xs, y :: ys => Op.beq x y && Op.beqList xs ys
  | _, _ => false
end

mutual
theorem Op.opbeq_iff : ∀ a b : Op, Op.beq a b = true ↔ a = b
  | .simple n1 a1 r1 e1 f1, b => by
      cases b <;> simp [Op.beq, and_assoc]
  | .build_file fn1 c1 g1 a1 k1 s1 r1 cr1 ra1 sf1 fi1, b => by
      cases b with
      | build_file fn2 c2 g2 a2 k2 s2 r2 cr2 ra2 sf2 fi2 =>
          simp [Op.beq, Op.opbeqList_iff s1 s2, and_assoc]
      | _ => simp [Op.beq]
  | .subbuild g1 a1 k1 s1 r1 ra1 sf1 fi1, b => by
      cases b with
      | subbuild g2 a2 k2 s2 r2 ra2 sf2 fi2 =>
          simp [Op.beq, Op.opbeqList_iff s1 s2, and_assoc]
      | _ => simp [Op.beq]

theorem Op.opbeqList_iff : ∀ xs ys : List Op, Op.beqList xs ys = true ↔ xs = ys
  | [], ys => by cases ys <;> simp [Op.beqList]
  | x :: xs, ys => by
      cases ys with
      | nil => simp [Op.beqList]
      | cons y ys =>
          simp only [Op.beqList, Bool.and_eq_true, Op.opbeq_iff x y,
            Op.opbeqList_iff xs ys, List.cons.injEq]
end

instance : DecidableEq Op := fun a b =>
  decidable_of_iff (Op.beq a b = true) (Op.opbeq_iff a b)

/-- Suboperations of an operation (empty for a simple operation). -/
def Op.subops : Op → List Op
  | .simple .. => []
  | .build_file _ _ _ _ _ subs _ _ _ _ _ => subs
  | .subbuild _ _ _ subs _ _ _ _ => subs

/-- Setup-failed flag of an operation (false for a simple operation). -/
def Op.sf : Op → Bool
  | .simple .. => false
  | .build_file _ _ _ _ _ _ _ _ _ sf _ => sf
  | .subbuild _ _ _ _ _ _ sf _ => sf

/-- Finished flag of an operation. -/
def Op.fin : Op → Bool
  | .simple _ _ _ _ f => f
  | .build_file _ _ _ _ _ _ _ _ _ _ f => f
  | .subbuild _ _ _ _ _ _ _ f => f

/-- Whether an operation is a complex operation. -/
def Op.is_complex : Op → Bool
  | .simple .. => false
  | _ => true

/-- Cache key of a subbuild, as in `Cache.subbuild_key`: the hashable
encoding of `[func_name, args, kwargs]`. -/
def subbuild_key : Op → Hashable
  | .subbuild fn args kwargs _ _ _ _ _ =>
      JsonUtil.to_hashable (.list [.str fn, args, kwargs])
  | _ => .null

section AList

variable {κ : Type} {α : Type} [DecidableEq κ]

/-- Python dictionary read access on an association list. -/
def alist_get : List (κ × α) → κ → Option α
  | [], _ => none
  | (k2, v) :: rest, k => if k2 = k then some v else alist_get rest k

/-- Python dictionary write access: replace the binding in place if the key
is present (Python dicts keep the original position), else append. -/
def alist_insert : List (κ × α) → κ → α → List (κ × α)
  | [], k, v => [(k, v)]
  | (k2, w) :: rest, k, v =>
      if k2 = k then (k, v) :: rest else (k2, w) :: alist_insert rest k v

theorem alist_get_insert_self (m : List (κ × α)) (k : κ) (v : α) :
    alist_get (alist_insert m k v) k = some v := by
  induction m with
  | nil => simp [alist_insert, alist_get]
  | cons p rest ih =>
      obtain ⟨k2, w⟩ := p
      by_cases h : k2 = k
      · subst h
        simp [alist_insert, alist_get]
      · simp [alist_insert, alist_get, h, ih]

theorem alist_get_insert_ne (m : List (κ × α)) (k k2 : κ) (v : α)
    (h : k2 ≠ k) : alist_get (alist_insert m k v) k2 = alist_get m k2 := by
  induction m with
  | nil => simp [alist_insert, alist_get, Ne.symm h]
  | cons p rest ih =>
      obtain ⟨k3, w⟩ := p
      by_cases hk : k3 = k
      · subst hk
        simp [alist_insert, alist_get, Ne.symm h]
      · simp only [alist_insert, if_neg hk, alist_get]
        by_cases hk2 : k3 = k2
        · simp [hk2]
        · simp [hk2, ih]

theorem alist_get_insert_isSome (m : List (κ × α)) (k k2 : κ) (v : α)
    (h : (alist_get m k2).isSome) :
    (alist_get (alist_insert m k v) k2).isSome := by
  by_cases hk : k2 = k
  · subst hk
    simp [alist_get_insert_self]
  · rwa [alist_get_insert_ne _ _ _ _ hk]

end AList

/-- Cache models the `Cache` class (cache.py): the maps of build-file and
subbuild results (`none` values are the in-progress sentinels), the
virtually created directories, and the version tables.  The lock structure
of the source is not modelled: each method is an atomic step here. -/
structure Cache where
  build_name : String
  files : List (String × Option Op)
  norm_cased_files : List (String × Option Op)
  subbuilds : List (Hashable × Option Op)
  created_dirs : List String
  func_versions : Json
  operation_versions : Json
deriving DecidableEq

/-- Error kinds raised by `Cache` methods. -/
inductive CacheError where
  | duplicate_build : CacheError
  | duplicate_subbuild : CacheError
  | unhandled_operation_type : CacheError
deriving DecidableEq

/-- The Python `Cache.__init__` constructor, which derives
`_norm_cased_files` from `files` (`norm_case` stands for
`os.path.normcase`, a parameter of the model). -/
def Cache.mkDerived (norm_case : String → String) (build_name : String)
    (files : List (String × Option Op)) (subbuilds : List (Hashable × Option Op))
    (created_dirs : List String) (func_versions operation_versions : Json) :
    Cache :=
  { build_name := build_name
    files := files
    norm_cased_files :=
      files.foldl (fun m p => alist_insert m (norm_case p.1) p.2) []
    subbuilds := subbuilds
    created_dirs := created_dirs
    func_versions := func_versions
    operation_versions := operation_versions }

/-- Embedding of `Cache.start_building_file` (cache.py): raise
`DuplicateBuild` when the norm-cased filename is already a key (started or
finished), else insert the in-progress sentinel under both the filename and
its norm-cased form.  An error carries the cache state at raise time. -/
def Cache.start_building_file (norm_case : String → String) (c : Cache)
    (filename : String) : Except (CacheError × Cache) Cache :=
  let ncf := norm_case filename
  if (alist_get c.norm_cased_files ncf).isSome then
    .error (.duplicate_build, c)
  else
    .ok { c with
      files := alist_insert c.files filename none
      norm_cased_files := alist_insert c.norm_cased_files ncf none }

mutual
/-- Embedding of `Cache._assert_no_repeats` (cache.py): pre-order check of
the operation tree against the existing maps, raising on the first record
whose key is already present; setup-failed records are not checked, and the
recursion only descends into complex suboperations.  Calling it on a simple
operation is a Python `AttributeError`, modelled as the unhandled-type
error. -/
def Cache.assert_no_repeats (norm_case : String → String) (c : Cache) :
    Op → Except CacheError Unit
  | .simple .. => .error .unhandled_operation_type
  | .build_file f _ _ _ _ subs _ _ _ sf _ =>
      if sf = false ∧ (alist_get c.norm_cased_files (norm_case f)).isSome then
        .error .duplicate_build
      else Cache.assert_no_repeats_list norm_case c subs
  | .subbuild fn args kwargs subs ret ra sf fi =>
      if sf = false ∧ (alist_get c.subbuilds
          (subbuild_key (.subbuild fn args kwargs subs ret ra sf fi))).isSome then
        .error .duplicate_subbuild
      else Cache.assert_no_repeats_list norm_case c subs

/-- Loop of `Cache._assert_no_repeats` over suboperations. -/
def Cache.assert_no_repeats_list (norm_case : String → String) (c : Cache) :
    List Op → Except CacheError Unit
  | [] => .ok ()
  | op :: rest =>
      if op.is_complex then
        match Cache.assert_no_repeats norm_case c op with
        | .error e => .error e
        | .ok _ => Cache.assert_no_repeats_list norm_case c rest
      else Cache.assert_no_repeats_list norm_case c rest
end

mutual
/-- Embedding of `Cache._use_cached_operation` (cache.py): insert the
record (unless setup-failed) and recurse into complex suboperations. -/
def Cache.use_cached_insert (norm_case : String → String) (c : Cache) :
    Op → Cache
  | .simple .. => c
  | .build_file f cmp fn args kwargs subs ret fcr ra sf fi =>
      let op := Op.build_file f cmp fn args kwargs subs ret fcr ra sf fi
      let c1 := if sf then c else
        { c with
          files := alist_insert c.files f (some op)
          norm_cased_files :=
            alist_insert c.norm_cased_files (norm_case f) (some op) }
      Cache.use_cached_insert_list norm_case c1 subs
  | .subbuild fn args kwargs subs ret ra sf fi =>
      let op := Op.subbuild fn args kwargs subs ret ra sf fi
      let c1 := if sf then c else
        { c with subbuilds := alist_insert c.subbuilds (subbuild_key op) (some op) }
      Cache.use_cached_insert_list norm_case c1 subs

/-- Loop of `Cache._use_cached_operation` over suboperations. -/
def Cache.use_cached_insert_list (norm_case : String → String) (c : Cache) :
    List Op → Cache
  | [] => c
  | op :: rest =>
      if op.is_complex then
        Cache.use_cached_insert_list norm_case
          (Cache.use_cached_insert norm_case c op) rest
      else Cache.use_cached_insert_list norm_case c rest
end

/-- Embedding of `Cache.use_cached_operation` (cache.py): check the whole
tree first under the locks, then plant every record.  An error carries the
cache state at raise time, which is the unmodified cache since the check
precedes all insertions. -/
def Cache.use_cached_operation (norm_case : String → String) (c : Cache)
    (op : Op) : Except (CacheError × Cache) Cache :=
  match Cache.assert_no_repeats norm_case c op with
  | .error e => .error (e, c)
  | .ok _ => .ok (Cache.use_cached_insert norm_case c op)

mutual
/-- Complex records of an operation tree with `setup_failed = false`: the
records `use_cached_operation` plants and `_assert_no_repeats` checks, in
traversal order. -/
def Op.tree_records : Op → List Op
  | .simple .. => []
  | .build_file f cmp fn args kwargs subs ret fcr ra sf fi =>
      (if sf then [] else [Op.build_file f cmp fn args kwargs subs ret fcr ra sf fi])
        ++ Op.tree_records_list subs
  | .subbuild fn args kwargs subs ret ra sf fi =>
      (if sf then [] else [Op.subbuild fn args kwargs subs ret ra sf fi])
        ++ Op.tree_records_list subs

/-- Records of a list of suboperations (descending into complex ones). -/
def Op.tree_records_list : List Op → List Op
  | [] => []
  | op :: rest =>
      (if op.is_complex then Op.tree_records op else [])
        ++ Op.tree_records_list rest
end

/-- Whether planting a record would collide with an existing cache entry. -/
def Cache.collides (norm_case : String → String) (c : Cache) : Op → Bool
  | .build_file f _ _ _ _ _ _ _ _ _ _ =>
      (alist_get c.norm_cased_files (norm_case f)).isSome
  | op@(.subbuild ..) => (alist_get c.subbuilds (subbuild_key op)).isSome
  | .simple .. => false

mutual
theorem assert_no_repeats_ok_iff (norm_case : String → String) (c : Cache) :
    ∀ op : Op, op.is_complex = true →
      (Cache.assert_no_repeats norm_case c op = .ok () ↔
        ∀ r ∈ op.tree_records, Cache.collides norm_case c r = false)
  | .simple .., h => by simp [Op.is_complex] at h
  | .build_file f cmp fn args kwargs subs ret fcr ra sf fi, _ => by
      have hrec := assert_no_repeats_list_ok_iff norm_case c subs
      cases sf with
      | true =>
          simp only [Cache.assert_no_repeats, Op.tree_records]
          simp [hrec]
      | false =>
          by_cases hcol :
              (alist_get c.norm_cased_files (norm_case f)).isSome = true
          · simp only [Cache.assert_no_repeats, Op.tree_records, hcol]
            simp only [and_true, if_pos rfl, if_neg (Bool.false_ne_true)]
            constructor
            · intro h
              exact absurd h (by simp)
            · intro h
              have := h (Op.build_file f cmp fn args kwargs subs ret fcr ra
                false fi) (by simp)
              rw [Cache.collides] at this
              rw [this] at hcol
              exact absurd hcol (by simp)
          · simp only [Cache.assert_no_repeats, Op.tree_records,
              if_neg (Bool.false_ne_true)]
            rw [if_neg (by simp [hcol])]
            rw [hrec]
            constructor
            · intro h r hr
              simp only [List.singleton_append, List.mem_cons] at hr
              rcases hr with rfl | hr
              · rw [Cache.collides]
                simp at hcol
                simp [hcol]
              · exact h r hr
            · intro h r hr
              exact h r (by
                simp only [List.singleton_append, List.mem_cons]
                exact Or.inr hr)
  | .subbuild fn args kwargs subs ret ra sf fi, _ => by
      have hrec := assert_no_repeats_list_ok_iff norm_case c subs
      cases sf with
      | true =>
          simp only [Cache.assert_no_repeats, Op.tree_records]
          simp [hrec]
      | false =>
          by_cases hcol :
              (alist_get c.subbuilds (subbuild_key
                (.subbuild fn args kwargs subs ret ra false fi))).isSome = true
          · simp only [Cache.assert_no_repeats, Op.tree_records, hcol]
            simp only [and_true, if_pos rfl, if_neg (Bool.false_ne_true)]
            constructor
            · intro h
              exact absurd h (by simp)
            · intro h
              have := h (Op.subbuild fn args kwargs subs ret ra false fi)
                (by simp)
              rw [Cache.collides] at this
              rw [this] at hcol
              exact absurd hcol (by simp)
          · simp only [Cache.assert_no_repeats, Op.tree_records,
              if_neg (Bool.false_ne_true)]
            rw [if_neg (by simp [hcol])]
            rw [hrec]
            constructor
            · intro h r hr
              simp only [List.singleton_append, List.mem_cons] at hr
              rcases hr with rfl | hr
              · rw [Cache.collides]
                simp at hcol
                simp [hcol]
              · exact h r hr
            · intro h r hr
              exact h r (by
                simp only [List.singleton_append, List.mem_cons]
                exact Or.inr hr)

theorem assert_no_repeats_list_ok_iff (norm_case : String → String)
    (c : Cache) :
    ∀ l : List Op,
      (Cache.assert_no_repeats_list norm_case c l = .ok () ↔
        ∀ r ∈ Op.tree_records_list l, Cache.collides norm_case c r = false)
  | [] => by simp [Cache.assert_no_repeats_list, Op.tree_records_list]
  | op :: rest => by
      have hrec := assert_no_repeats_list_ok_iff norm_case c rest
      rw [Cache.assert_no_repeats_list, Op.tree_records_list]
      by_cases hc : op.is_complex = true
      · simp only [if_pos hc]
        cases hop : Cache.assert_no_repeats norm_case c op with
        | error e =>
            constructor
            · intro h
              exact absurd h (by simp)
            · intro h
              have hok : Cache.assert_no_repeats norm_case c op = .ok () := by
                rw [assert_no_repeats_ok_iff norm_case c op hc]
                intro r hr
                exact h r (by simp [hc, hr])
              rw [hop] at hok
              exact absurd hok (by simp)
        | ok u =>
            obtain rfl : u = () := rfl
            rw [hrec]
            constructor
            · intro h r hr
              simp only [if_pos hc, List.mem_append] at hr
              rcases hr with hr | hr
              · exact ((assert_no_repeats_ok_iff norm_case c op hc).mp hop)
                  r hr
              · exact h r hr
            · intro h r hr
              exact h r (by simp [hc, hr])
      · simp only [if_neg hc]
        rw [hrec]
        simp [hc]
end

mutual
/-- Build-file records planted by `use_cached_operation`, with their map
keys (the non-norm-cased filenames), in insertion order. -/
def Op.file_entries : Op → List (String × Op)
  | .simple .. => []
  | .build_file f cmp fn args kwargs subs ret fcr ra sf fi =>
      (if sf then [] else
        [(f, Op.build_file f cmp fn args kwargs subs ret fcr ra sf fi)])
        ++ Op.file_entries_list subs
  | .subbuild _ _ _ subs _ _ _ _ => Op.file_entries_list subs

/-- Build-file records of a suboperation list. -/
def Op.file_entries_list : List Op → List (String × Op)
  | [] => []
  | op :: rest =>
      (if op.is_complex then Op.file_entries op else [])
        ++ Op.file_entries_list rest
end

mutual
/-- Subbuild records planted by `use_cached_operation`, with their cache
keys, in insertion order. -/
def Op.subbuild_entries : Op → List (Hashable × Op)
  | .simple .. => []
  | .build_file _ _ _ _ _ subs _ _ _ _ _ => Op.subbuild_entries_list subs
  | .subbuild fn args kwargs subs ret ra sf fi =>
      (if sf then [] else
        [(subbuild_key (.subbuild fn args kwargs subs ret ra sf fi),
          Op.subbuild fn args kwargs subs ret ra sf fi)])
        ++ Op.subbuild_entries_list subs

/-- Subbuild records of a suboperation list. -/
def Op.subbuild_entries_list : List Op → List (Hashable × Op)
  | [] => []
  | op :: rest =>
      (if op.is_complex then Op.subbuild_entries op else [])
        ++ Op.subbuild_entries_list rest
end

section AListFold

variable {κ : Type} {α : Type} [DecidableEq κ]

/-- Folding insertions over an association list, the form taken by the
planting pass and the read-back indexing pass. -/
def alist_insert_all (m : List (κ × α)) (l : List (κ × α)) : List (κ × α) :=
  l.foldl (fun m2 p => alist_insert m2 p.1 p.2) m

theorem alist_insert_all_nil (m : List (κ × α)) : alist_insert_all m [] = m :=
  rfl

theorem alist_insert_all_cons (m : List (κ × α)) (p : κ × α) (l : List (κ × α)) :
    alist_insert_all m (p :: l) = alist_insert_all (alist_insert m p.1 p.2) l :=
  rfl

theorem alist_insert_all_append (m : List (κ × α)) (l1 l2 : List (κ × α)) :
    alist_insert_all m (l1 ++ l2) = alist_insert_all (alist_insert_all m l1) l2 := by
  simp [alist_insert_all, List.foldl_append]

theorem alist_insert_all_get_not_mem (m : List (κ × α)) (l : List (κ × α))
    (k : κ) (h : k ∉ l.map Prod.fst) :
    alist_get (alist_insert_all m l) k = alist_get m k := by
  induction l generalizing m with
  | nil => rfl
  | cons p rest ih =>
      rw [alist_insert_all_cons]
      simp only [List.map_cons, List.mem_cons] at h
      push_neg at h
      rw [ih _ h.2]
      exact alist_get_insert_ne _ _ _ _ h.1

theorem alist_insert_all_get_mem (m : List (κ × α)) (l : List (κ × α))
    (k : κ) (v : α) (hnd : (l.map Prod.fst).Nodup) (h : (k, v) ∈ l) :
    alist_get (alist_insert_all m l) k = some v := by
  induction l generalizing m with
  | nil => simp at h
  | cons p rest ih =>
      obtain ⟨k2, w⟩ := p
      simp only [List.map_cons, List.nodup_cons] at hnd
      rw [alist_insert_all_cons]
      rcases List.mem_cons.mp h with heq | hmem
      · cases heq
        rw [alist_insert_all_get_not_mem _ _ _ hnd.1,
          alist_get_insert_self]
      · exact ih _ hnd.2 hmem

theorem alist_insert_all_isSome (m : List (κ × α)) (l : List (κ × α))
    (k : κ) (h : (alist_get m k).isSome) :
    (alist_get (alist_insert_all m l) k).isSome := by
  induction l generalizing m with
  | nil => exact h
  | cons p rest ih =>
      rw [alist_insert_all_cons]
      exact ih _ (alist_get_insert_isSome _ _ _ _ h)

theorem alist_insert_all_isSome_of_mem (m : List (κ × α)) (l : List (κ × α))
    (k : κ) (h : k ∈ l.map Prod.fst) :
    (alist_get (alist_insert_all m l) k).isSome := by
  induction l generalizing m with
  | nil => simp at h
  | cons p rest ih =>
      rw [alist_insert_all_cons]
      rcases List.mem_cons.mp h with heq | hmem
      · subst heq
        exact alist_insert_all_isSome _ _ _ (by simp [alist_get_insert_self])
      · exact ih _ hmem

end AListFold

mutual
theorem use_cached_insert_eq (norm_case : String → String) :
    ∀ (op : Op) (c : Cache),
      Cache.use_cached_insert norm_case c op =
        { c with
          files := alist_insert_all c.files
            (op.file_entries.map (fun p => (p.1, some p.2)))
          norm_cased_files := alist_insert_all c.norm_cased_files
            (op.file_entries.map (fun p => (norm_case p.1, some p.2)))
          subbuilds := alist_insert_all c.subbuilds
            (op.subbuild_entries.map (fun p => (p.1, some p.2))) }
  | .simple .., c => by
      simp [Cache.use_cached_insert, Op.file_entries, Op.subbuild_entries,
        alist_insert_all]
  | .build_file f cmp fn args kwargs subs ret fcr ra sf fi, c => by
      rw [Cache.use_cached_insert, Op.file_entries, Op.subbuild_entries]
      rw [use_cached_insert_list_eq norm_case subs]
      cases sf with
      | true => simp [alist_insert_all]
      | false =>
          simp only [if_neg (Bool.false_ne_true), List.singleton_append,
            List.map_cons, alist_insert_all_cons]
  | .subbuild fn args kwargs subs ret ra sf fi, c => by
      rw [Cache.use_cached_insert, Op.file_entries, Op.subbuild_entries]
      rw [use_cached_insert_list_eq norm_case subs]
      cases sf with
      | true => simp [alist_insert_all]
      | false =>
          simp only [if_neg (Bool.false_ne_true), List.singleton_append,
            List.map_cons, alist_insert_all_cons]

theorem use_cached_insert_list_eq (norm_case : String → String) :
    ∀ (l : List Op) (c : Cache),
      Cache.use_cached_insert_list norm_case c l =
        { c with
          files := alist_insert_all c.files
            ((Op.file_entries_list l).map (fun p => (p.1, some p.2)))
          norm_cased_files := alist_insert_all c.norm_cased_files
            ((Op.file_entries_list l).map (fun p => (norm_case p.1, some p.2)))
          subbuilds := alist_insert_all c.subbuilds
            ((Op.subbuild_entries_list l).map (fun p => (p.1, some p.2))) }
  | [], c => by
      simp [Cache.use_cached_insert_list, Op.file_entries_list,
        Op.subbuild_entries_list, alist_insert_all]
  | op :: rest, c => by
      rw [Cache.use_cached_insert_list, Op.file_entries_list,
        Op.subbuild_entries_list]
      by_cases hc : op.is_complex = true
      · simp only [if_pos hc]
        rw [use_cached_insert_list_eq norm_case rest,
          use_cached_insert_eq norm_case op c]
        simp [List.map_append, alist_insert_all_append]
      · simp only [if_neg hc]
        rw [use_cached_insert_list_eq norm_case rest]
        simp
end

mutual
theorem assert_no_repeats_error_kind (norm_case : String → String) (c : Cache) :
    ∀ op : Op, op.is_complex = true → ∀ e : CacheError,
      Cache.assert_no_repeats norm_case c op = .error e →
      e = .duplicate_build ∨ e = .duplicate_subbuild
  | .simple .., h => by simp [Op.is_complex] at h
  | .build_file f cmp fn args kwargs subs ret fcr ra sf fi, _ => by
      intro e h
      rw [Cache.assert_no_repeats] at h
      split at h
      · exact Or.inl (by
          injection h with h2
          exact h2.symm)
      · exact assert_no_repeats_list_error_kind norm_case c subs e h
  | .subbuild fn args kwargs subs ret ra sf fi, _ => by
      intro e h
      rw [Cache.assert_no_repeats] at h
      split at h
      · exact Or.inr (by
          injection h with h2
          exact h2.symm)
      · exact assert_no_repeats_list_error_kind norm_case c subs e h

theorem assert_no_repeats_list_error_kind (norm_case : String → String)
    (c : Cache) :
    ∀ (l : List Op) (e : CacheError),
      Cache.assert_no_repeats_list norm_case c l = .error e →
      e = .duplicate_build ∨ e = .duplicate_subbuild
  | [], e => by simp [Cache.assert_no_repeats_list]
  | op :: rest, e => by
      intro h
      rw [Cache.assert_no_repeats_list] at h
      by_cases hc : op.is_complex = true
      · rw [if_pos hc] at h
        cases hop : Cache.assert_no_repeats norm_case c op with
        | error e2 =>
            rw [hop] at h
            injection h with h2
            subst h2
            exact assert_no_repeats_error_kind norm_case c op hc _ hop
        | ok u =>
            rw [hop] at h
            exact assert_no_repeats_list_error_kind norm_case c rest e h
      · rw [if_neg hc] at h
        exact assert_no_repeats_list_error_kind norm_case c rest e h
end

/-- Claim C3: `Cache.start_building_file` raises `DuplicateBuild` exactly
when some filename already present in the cache (started or finished) has
the same norm-cased form as the requested one; on success it inserts the
in-progress sentinel under the filename and its norm-cased form; an error
leaves the cache unchanged (the error carries the state at raise time).
The hypothesis is the `Cache` invariant that `norm_cased_files` indexes
exactly the norm-cased forms of the keys of `files`. -/
theorem C3_start_building_file (norm_case : String → String) (c : Cache)
    (filename : String)
    (hinv : ∀ k, (alist_get c.norm_cased_files k).isSome ↔
      ∃ f, (alist_get c.files f).isSome ∧ norm_case f = k) :
    ((∃ e, Cache.start_building_file norm_case c filename = .error e) ↔
      ∃ f, (alist_get c.files f).isSome ∧ norm_case f = norm_case filename) ∧
    (∀ e c2, Cache.start_building_file norm_case c filename = .error (e, c2) →
      e = .duplicate_build ∧ c2 = c) ∧
    (∀ c2, Cache.start_building_file norm_case c filename = .ok c2 →
      c2 = { c with
        files := alist_insert c.files filename none
        norm_cased_files :=
          alist_insert c.norm_cased_files (norm_case filename) none }) := by
  by_cases h : (alist_get c.norm_cased_files (norm_case filename)).isSome
  · refine ⟨?_, ?_, ?_⟩
    · constructor
      · intro _
        exact (hinv (norm_case filename)).mp h
      · intro _
        exact ⟨(.duplicate_build, c), by
          simp [Cache.start_building_file, h]⟩
    · intro e c2 he
      simp only [Cache.start_building_file, if_pos h] at he
      injection he with he2
      simp only [Prod.mk.injEq] at he2
      exact ⟨he2.1.symm, he2.2.symm⟩
    · intro c2 hok
      simp [Cache.start_building_file, h] at hok
  · refine ⟨?_, ?_, ?_⟩
    · constructor
      · rintro ⟨e, he⟩
        simp [Cache.start_building_file, h] at he
      · intro hex
        exact absurd ((hinv (norm_case filename)).mpr hex) h
    · intro e c2 he
      simp [Cache.start_building_file, h] at he
    · intro c2 hok
      simp only [Cache.start_building_file, if_neg h, Except.ok.injEq] at hok
      exact hok.symm

theorem C3_witness :
    (∀ k, (alist_get (α := Option Op) ([] : List (String × Option Op)) k).isSome ↔
      ∃ f, (alist_get (α := Option Op) ([] : List (String × Option Op)) f).isSome ∧
        (fun s => s) f = k) ∧
    (((∃ e, Cache.start_building_file (fun s => s)
        { build_name := "b", files := [], norm_cased_files := [],
          subbuilds := [], created_dirs := [], func_versions := .dict [],
          operation_versions := .dict [] } "x" = .error e) ↔
      ∃ f, (alist_get (α := Option Op) ([] : List (String × Option Op)) f).isSome ∧
        (fun s => s) f = (fun s => s) "x") ∧
    (∀ e c2, Cache.start_building_file (fun s => s)
        { build_name := "b", files := [], norm_cased_files := [],
          subbuilds := [], created_dirs := [], func_versions := .dict [],
          operation_versions := .dict [] } "x" = .error (e, c2) →
      e = .duplicate_build ∧ c2 =
        { build_name := "b", files := [], norm_cased_files := [],
          subbuilds := [], created_dirs := [], func_versions := .dict [],
          operation_versions := .dict [] }) ∧
    (∀ c2, Cache.start_building_file (fun s => s)
        { build_name := "b", files := [], norm_cased_files := [],
          subbuilds := [], created_dirs := [], func_versions := .dict [],
          operation_versions := .dict [] } "x" = .ok c2 →
      c2 = { build_name := "b",
             files := alist_insert ([] : List (String × Option Op)) "x" none,
             norm_cased_files := alist_insert
               ([] : List (String × Option Op)) ((fun s => s) "x") none,
             subbuilds := [], created_dirs := [], func_versions := .dict [],
             operation_versions := .dict [] })) := by
  have hinv : ∀ k,
      (alist_get (α := Option Op) ([] : List (String × Option Op)) k).isSome ↔
      ∃ f, (alist_get (α := Option Op) ([] : List (String × Option Op)) f).isSome ∧
        (fun s => s) f = k := by
    intro k
    simp [alist_get]
  exact ⟨hinv, C3_start_building_file (fun s => s) _ "x" hinv⟩

/-- Claim C5: `Cache.use_cached_operation` on a finished complex operation
tree plants the tree record and every descendant build-file or subbuild
record with `setup_failed = false` into the file and subbuild maps (the
`file_entries` and `subbuild_entries` of the tree), leaving all other keys
untouched, and raises `DuplicateBuild` or `DuplicateSubbuild` exactly when
some such record collides with an existing entry; an error leaves the
cache unchanged, since the whole tree is checked before any insertion.
The Nodup hypotheses say the tree does not plant one key twice, which holds
for real trees (one record per build-file name and per subbuild key). -/
theorem C5_use_cached_operation (norm_case : String → String) (c : Cache)
    (op : Op) (hcx : op.is_complex = true) (hfin : op.fin = true)
    (hnd_f : (op.file_entries.map Prod.fst).Nodup)
    (hnd_n : (op.file_entries.map (fun p => norm_case p.1)).Nodup)
    (hnd_s : (op.subbuild_entries.map Prod.fst).Nodup) :
    ((∃ e c2, Cache.use_cached_operation norm_case c op = .error (e, c2)) ↔
      ∃ r ∈ op.tree_records, Cache.collides norm_case c r = true) ∧
    (∀ e c2, Cache.use_cached_operation norm_case c op = .error (e, c2) →
      c2 = c ∧ (e = .duplicate_build ∨ e = .duplicate_subbuild)) ∧
    (∀ c2, Cache.use_cached_operation norm_case c op = .ok c2 →
      (∀ p ∈ op.file_entries,
        alist_get c2.files p.1 = some (some p.2) ∧
        alist_get c2.norm_cased_files (norm_case p.1) = some (some p.2)) ∧
      (∀ p ∈ op.subbuild_entries,
        alist_get c2.subbuilds p.1 = some (some p.2)) ∧
      (∀ k, k ∉ op.file_entries.map Prod.fst →
        alist_get c2.files k = alist_get c.files k) ∧
      (∀ k, k ∉ op.subbuild_entries.map Prod.fst →
        alist_get c2.subbuilds k = alist_get c.subbuilds k) ∧
      c2.build_name = c.build_name ∧ c2.created_dirs = c.created_dirs ∧
      c2.func_versions = c.func_versions ∧
      c2.operation_versions = c.operation_versions) := by
  cases hass : Cache.assert_no_repeats norm_case c op with
  | error e =>
      refine ⟨?_, ?_, ?_⟩
      · constructor
        · intro _
          have hne : ¬ Cache.assert_no_repeats norm_case c op = .ok () := by
            rw [hass]
            simp
          rw [assert_no_repeats_ok_iff norm_case c op hcx] at hne
          push_neg at hne
          obtain ⟨r, hr, hcol⟩ := hne
          exact ⟨r, hr, by
            cases hcv : Cache.collides norm_case c r
            · exact absurd hcv hcol
            · rfl⟩
        · intro _
          exact ⟨e, c, by simp [Cache.use_cached_operation, hass]⟩
      · intro e2 c2 he
        simp only [Cache.use_cached_operation, hass] at he
        injection he with he2
        simp only [Prod.mk.injEq] at he2
        refine ⟨he2.2.symm, ?_⟩
        obtain rfl : e2 = e := he2.1.symm
        exact assert_no_repeats_error_kind norm_case c op hcx _ hass
      · intro c2 hok
        simp [Cache.use_cached_operation, hass] at hok
  | ok u =>
      obtain rfl : u = () := rfl
      have hnone := (assert_no_repeats_ok_iff norm_case c op hcx).mp hass
      refine ⟨?_, ?_, ?_⟩
      · constructor
        · rintro ⟨e, c2, he⟩
          simp [Cache.use_cached_operation, hass] at he
        · rintro ⟨r, hr, hcol⟩
          rw [hnone r hr] at hcol
          exact absurd hcol (by simp)
      · intro e c2 he
        simp [Cache.use_cached_operation, hass] at he
      · intro c2 hok
        simp only [Cache.use_cached_operation, hass, Except.ok.injEq] at hok
        subst hok
        rw [use_cached_insert_eq norm_case op c]
        refine ⟨?_, ?_, ?_, ?_, rfl, rfl, rfl, rfl⟩
        · intro p hp
          constructor
          · apply alist_insert_all_get_mem
            · simpa [List.map_map, Function.comp] using hnd_f
            · exact List.mem_map_of_mem _ hp
          · apply alist_insert_all_get_mem
            · simpa [List.map_map, Function.comp] using hnd_n
            · exact List.mem_map_of_mem _ hp
        · intro p hp
          apply alist_insert_all_get_mem
          · simpa [List.map_map, Function.comp] using hnd_s
          · exact List.mem_map_of_mem _ hp
        · intro k hk
          apply alist_insert_all_get_not_mem
          simpa [List.map_map, Function.comp] using hk
        · intro k hk
          apply alist_insert_all_get_not_mem
          simpa [List.map_map, Function.comp] using hk

theorem C5_witness :
    ((Op.build_file "x" .METADATA "fn" (.list []) (.dict []) [] .null .null
        false false true).is_complex = true) ∧
    ((Op.build_file "x" .METADATA "fn" (.list []) (.dict []) [] .null .null
        false false true).fin = true) ∧
    (((Op.build_file "x" .METADATA "fn" (.list []) (.dict []) [] .null .null
        false false true).file_entries.map Prod.fst).Nodup) ∧
    ((∃ e c2, Cache.use_cached_operation (fun s => s)
        { build_name := "b", files := [], norm_cased_files := [],
          subbuilds := [], created_dirs := [], func_versions := .dict [],
          operation_versions := .dict [] }
        (Op.build_file "x" .METADATA "fn" (.list []) (.dict []) [] .null .null
          false false true) = .error (e, c2)) ↔
      ∃ r ∈ (Op.build_file "x" .METADATA "fn" (.list []) (.dict []) [] .null
          .null false false true).tree_records,
        Cache.collides (fun s => s)
          { build_name := "b", files := [], norm_cased_files := [],
            subbuilds := [], created_dirs := [], func_versions := .dict [],
            operation_versions := .dict [] } r = true) := by
  have hcx : (Op.build_file "x" .METADATA "fn" (.list []) (.dict []) [] .null
      .null false false true).is_complex = true := rfl
  have hfin : (Op.build_file "x" .METADATA "fn" (.list []) (.dict []) [] .null
      .null false false true).fin = true := rfl
  have hent : (Op.build_file "x" .METADATA "fn" (.list []) (.dict []) [] .null
      .null false false true).file_entries =
      [("x", Op.build_file "x" .METADATA "fn" (.list []) (.dict []) [] .null
        .null false false true)] := by
    simp [Op.file_entries, Op.file_entries_list]
  have hsent : (Op.build_file "x" .METADATA "fn" (.list []) (.dict []) []
      .null .null false false true).subbuild_entries = [] := by
    simp [Op.subbuild_entries, Op.subbuild_entries_list]
  have hnd_n : ((Op.build_file "x" .METADATA "fn" (.list []) (.dict []) []
      .null .null false false true).file_entries.map
        (fun p => (fun s => s) p.1)).Nodup := by
    rw [hent]
    simp
  have hnd_s : ((Op.build_file "x" .METADATA "fn" (.list []) (.dict []) []
      .null .null false false true).subbuild_entries.map Prod.fst).Nodup := by
    rw [hsent]
    simp
  have hnd_f : ((Op.build_file "x" .METADATA "fn" (.list []) (.dict []) []
      .null .null false false true).file_entries.map Prod.fst).Nodup := by
    rw [hent]
    simp
  refine ⟨hcx, hfin, hnd_f, ?_⟩
  exact (C5_use_cached_operation (fun s => s) _ _ hcx hfin hnd_f hnd_n hnd_s).1

/-- Read access `operation_json[key]` on a JSON value: a lookup that is a
`TypeError` (non-dict) or `KeyError` (missing key) in Python is `none`. -/
def jget (j : Json) (k : String) : Option Json :=
  match j with
  | .dict kvs => dict_get kvs k
  | _ => none

/-- The `operation_json.get(key, False)` access for the `raised` and
`setupFailed` flags: absent means false.  A non-boolean value cannot be
represented in the `Bool` fields of the model and is mapped to `none`. -/
def get_flag (j : Json) (k : String) : Option Bool :=
  match jget j k with
  | none => some false
  | some (.bool b) => some b
  | some _ => none

/-- Conversion of a parsed JSON list to a string list (the `createdDirs`
entries); a non-string element cannot be represented and is `none`. -/
def strings_of : List Json → Option (List String)
  | [] => some []
  | .str s :: rest => (strings_of rest).map (fun l => s :: l)
  | _ :: _ => none

theorem jget_sizeOf {j : Json} {k : String} {v : Json}
    (h : jget j k = some v) : sizeOf v < sizeOf j := by
  cases j <;> simp [jget] at h
  rename_i kvs
  have h1 := JsonUtil.dict_get_sizeOf h
  have h2 : sizeOf (Json.dict kvs) = 1 + sizeOf kvs := by simp
  omega

mutual
/-- Embedding of `Cache._operation_to_json` (cache.py): the JSON value
representation that `write` stores for an operation.  The `raised` and
`setupFailed` keys are only present when true; the `exceptionType` key is
only present for a simple operation that raised. -/
def operation_to_json : Op → Json
  | .simple name args ret exc _ =>
      .dict ([("args", args), ("returnValue", ret), ("type", .str name)] ++
        (match exc with
         | some e => [("exceptionType", .str e)]
         | none => []))
  | .build_file f cmp fn args kwargs subs ret fcr ra sf _ =>
      .dict ([("args", args), ("funcName", .str fn), ("kwargs", kwargs),
        ("returnValue", ret),
        ("suboperations", .list (operations_to_json subs))] ++
        (if ra then [("raised", .bool true)] else []) ++
        (if sf then [("setupFailed", .bool true)] else []) ++
        [("type", .str "build_file"), ("filename", .str f),
         ("fileComparison", .str cmp.nameStr), ("fileComparisonResult", fcr)])
  | .subbuild fn args kwargs subs ret ra sf _ =>
      .dict ([("args", args), ("funcName", .str fn), ("kwargs", kwargs),
        ("returnValue", ret),
        ("suboperations", .list (operations_to_json subs))] ++
        (if ra then [("raised", .bool true)] else []) ++
        (if sf then [("setupFailed", .bool true)] else []) ++
        [("type", .str "subbuild")])

/-- Serialization of a suboperation list. -/
def operations_to_json : List Op → List Json
  | [] => []
  | op :: rest => operation_to_json op :: operations_to_json rest
end

mutual
/-- Embedding of `Cache._operation_from_json` (cache.py).  A `type` of
`"build_file"` or `"subbuild"` parses the corresponding complex record
(with a recursive parse of `suboperations`, optional flags defaulting to
false, and `FileComparison[...]` lookup); ANY other string parses as a
simple operation record with that string as its name — there is no
known-name check.  Python exceptions (missing or ill-typed keys) are
`none`. -/
def operation_from_json (j : Json) : Option Op :=
  match jget j "type" with
  | some (.str t) =>
      if t = "build_file" then
        match jget j "filename", jget j "fileComparison", jget j "funcName",
            jget j "args", jget j "kwargs" with
        | some (.str f), some (.str cmpS), some (.str fn), some args,
          some kwargs =>
            match file_comparison_of_name cmpS with
            | some cmp =>
                match hsub : jget j "suboperations" with
                | some (.list subsJ) =>
                    match operations_from_json subsJ with
                    | some subs =>
                        match jget j "returnValue",
                            jget j "fileComparisonResult",
                            get_flag j "raised", get_flag j "setupFailed" with
                        | some ret, some fcr, some ra, some sf =>
                            some (.build_file f cmp fn args kwargs subs ret
                              fcr ra sf true)
                        | _, _, _, _ => none
                    | none => none
                | _ => none
            | none => none
        | _, _, _, _, _ => none
      else if t = "subbuild" then
        match jget j "funcName", jget j "args", jget j "kwargs" with
        | some (.str fn), some args, some kwargs =>
            match hsub : jget j "suboperations" with
            | some (.list subsJ) =>
                match operations_from_json subsJ with
                | some subs =>
                    match jget j "returnValue", get_flag j "raised",
                        get_flag j "setupFailed" with
                    | some ret, some ra, some sf =>
                        some (.subbuild fn args kwargs subs ret ra sf true)
                    | _, _, _ => none
                | none => none
            | _ => none
        | _, _, _ => none
      else
        match jget j "args", jget j "returnValue" with
        | some args, some ret =>
            match jget j "exceptionType" with
            | none => some (.simple t args ret none true)
            | some (.str e) => some (.simple t args ret (some e) true)
            | some _ => none
        | _, _ => none
  | _ => none
termination_by (sizeOf j, 0)
decreasing_by
  all_goals simp_wf
  all_goals
    apply Prod.Lex.left
    have h1 := jget_sizeOf hsub
    simp at h1
    omega

/-- Embedding of `Cache._operations_from_json`: parse each element. -/
def operations_from_json : List Json → Option (List Op)
  | [] => some []
  | j :: rest =>
      match operation_from_json j with
      | some op =>
          match operations_from_json rest with
          | some ops => some (op :: ops)
          | none => none
      | none => none
termination_by l => (sizeOf l, 1)
decreasing_by
  all_goals simp_wf
  all_goals
    apply Prod.Lex.left
    omega
end

mutual
/-- The map insertions `read_immutable` performs while parsing: each
build-file or subbuild record with `setup_failed = false` is indexed (its
suboperations first, since they are parsed before the record itself is
constructed). -/
def collect_op (op : Op)
    (acc : List (String × Option Op) × List (Hashable × Option Op)) :
    List (String × Option Op) × List (Hashable × Option Op) :=
  match op with
  | .simple .. => acc
  | .build_file f cmp fn args kwargs subs ret fcr ra sf fi =>
      let acc1 := collect_list subs acc
      if sf then acc1
      else (alist_insert acc1.1 f
        (some (.build_file f cmp fn args kwargs subs ret fcr ra sf fi)),
        acc1.2)
  | .subbuild fn args kwargs subs ret ra sf fi =>
      let acc1 := collect_list subs acc
      if sf then acc1
      else (acc1.1, alist_insert acc1.2
        (subbuild_key (.subbuild fn args kwargs subs ret ra sf fi))
        (some (.subbuild fn args kwargs subs ret ra sf fi)))

/-- Indexing pass over a list of parsed operations, in order. -/
def collect_list (l : List Op)
    (acc : List (String × Option Op) × List (Hashable × Option Op)) :
    List (String × Option Op) × List (Hashable × Option Op) :=
  match l with
  | [] => acc
  | op :: rest => collect_list rest (collect_op op acc)
end

/-- Error kinds of `Cache.read_immutable`: the explicit `RuntimeError`
parse failures (`cache_format`), and other Python exceptions such as
`KeyError` on a missing key (`crash`).  File-level errors (missing file,
gzip failures) live outside this JSON-level model. -/
inductive ReadError where
  | cache_format : ReadError
  | crash : ReadError
deriving DecidableEq

/-- Embedding of `Cache.read_immutable` (cache.py) at the JSON level (the
file contents stand for the parsed JSON value): validate `software` and
`cacheFileVersion` (the current version is `None`, hence `null`), parse the
root operations while indexing their complex records, and assemble the
`Cache` through the constructor, which derives the norm-cased file map. -/
def Cache.read_immutable (norm_case : String → String) (j : Json) :
    Except ReadError Cache :=
  match j with
  | .dict kvs =>
      if dict_get kvs "software" = some (.str "file_builder") then
        match dict_get kvs "cacheFileVersion" with
        | none => .error .crash
        | some ver =>
            if JsonUtil.is_equal ver .null then
              match dict_get kvs "rootOperations" with
              | some (.list rootsJ) =>
                  match operations_from_json rootsJ with
                  | some roots =>
                      match dict_get kvs "buildName",
                          dict_get kvs "createdDirs",
                          dict_get kvs "funcVersions",
                          dict_get kvs "operationVersions" with
                      | some (.str bn), some (.list cds), some fv, some ov =>
                          match strings_of cds with
                          | some cdirs =>
                              .ok (Cache.mkDerived norm_case bn
                                (collect_list roots ([], [])).1
                                (collect_list roots ([], [])).2 cdirs fv ov)
                          | none => .error .crash
                      | _, _, _, _ => .error .crash
                  | none => .error .crash
              | _ => .error .crash
            else .error .cache_format
      else .error .cache_format
  | _ => .error .cache_format

/-- Embedding of `Cache.write` (cache.py) at the JSON level: with the
locks held, take the operations of the file and subbuild maps (a `None`
in-progress sentinel makes the Python code crash, modelled as `none`),
compute the root operations (those that are not a direct suboperation of
another map operation; the Python identity-set membership becomes value
membership, which is the notion available in a pure model), and emit the
top-level object with its keys in sorted order.  The current
`_CACHE_FILE_VERSION` is `None`. -/
def Cache.ops_list (c : Cache) : List (Option Op) :=
  c.files.map Prod.snd ++ c.subbuilds.map Prod.snd

/-- The operations of the cache maps, as in
`list(self._files.values()) + list(self._subbuilds.values())` inside
`Cache.write` (after the in-progress sentinel check). -/
def Cache.operations (c : Cache) : List Op :=
  c.ops_list.reduceOption

/-- The direct suboperations of all map operations (`non_root_operations`
in `Cache.write`). -/
def Cache.non_root (c : Cache) : List Op :=
  c.operations.foldl (fun acc op => acc ++ op.subops) []

/-- The root operations `Cache.write` serializes: map operations that are
not a direct suboperation of another map operation. -/
def Cache.roots (c : Cache) : List Op :=
  c.operations.filter (fun op => !(c.non_root.contains op))

def Cache.writeJson (c : Cache) : Option Json :=
  if c.ops_list.all Option.isSome then
    some (.dict [("buildName", .str c.build_name),
      ("cacheFileVersion", .null),
      ("createdDirs", .list (c.created_dirs.map Json.str)),
      ("funcVersions", c.func_versions),
      ("operationVersions", c.operation_versions),
      ("rootOperations", .list (operations_to_json c.roots)),
      ("software", .str "file_builder")])
  else none

mutual
/-- All nodes of an operation tree, the operation itself first. -/
def Op.tree_ops : Op → List Op
  | .simple n a r e f => [.simple n a r e f]
  | .build_file f cmp fn args kwargs subs ret fcr ra sf fi =>
      .build_file f cmp fn args kwargs subs ret fcr ra sf fi ::
        Op.tree_ops_list subs
  | .subbuild fn args kwargs subs ret ra sf fi =>
      .subbuild fn args kwargs subs ret ra sf fi :: Op.tree_ops_list subs

/-- All nodes of the trees of a list of operations. -/
def Op.tree_ops_list : List Op → List Op
  | [] => []
  | op :: rest => Op.tree_ops op ++ Op.tree_ops_list rest
end

theorem self_mem_tree_ops (op : Op) : op ∈ op.tree_ops := by
  cases op <;> simp [Op.tree_ops]

theorem mem_tree_ops_list {l : List Op} {x : Op} :
    x ∈ Op.tree_ops_list l ↔ ∃ d ∈ l, x ∈ d.tree_ops := by
  induction l with
  | nil => simp [Op.tree_ops_list]
  | cons d rest ih =>
      simp only [Op.tree_ops_list, List.mem_append, ih, List.mem_cons]
      constructor
      · rintro (h | ⟨d2, hd2, hx⟩)
        · exact ⟨d, Or.inl rfl, h⟩
        · exact ⟨d2, Or.inr hd2, hx⟩
      · rintro ⟨d2, (rfl | hd2), hx⟩
        · exact Or.inl hx
        · exact Or.inr ⟨d2, hd2, hx⟩

theorem mem_tree_ops_of_sub {op d x : Op} (hd : d ∈ op.subops)
    (hx : x ∈ d.tree_ops) : x ∈ op.tree_ops := by
  cases op <;> simp [Op.subops] at hd <;>
    simp [Op.tree_ops, mem_tree_ops_list]
  · exact Or.inr ⟨d, hd, hx⟩
  · exact Or.inr ⟨d, hd, hx⟩

theorem tree_ops_inv {op x : Op} (h : x ∈ op.tree_ops) :
    x = op ∨ ∃ d ∈ op.subops, x ∈ d.tree_ops := by
  cases op <;> simp only [Op.tree_ops, List.mem_cons, List.mem_singleton,
    mem_tree_ops_list] at h
  · exact Or.inl (by simpa using h)
  · rcases h with h | h
    · exact Or.inl h
    · exact Or.inr (by simpa [Op.subops] using h)
  · rcases h with h | h
    · exact Or.inl h
    · exact Or.inr (by simpa [Op.subops] using h)

theorem subops_sizeOf {p v : Op} (h : v ∈ p.subops) : sizeOf v < sizeOf p := by
  cases p <;> simp [Op.subops] at h
  all_goals
    have := List.sizeOf_lt_of_mem h
    simp
    omega

theorem tree_ops_trans_aux :
    ∀ n : Nat, ∀ z x y : Op, sizeOf z ≤ n → y ∈ z.tree_ops →
      x ∈ y.tree_ops → x ∈ z.tree_ops := by
  intro n
  induction n with
  | zero =>
      intro z x y hsz
      exact absurd hsz (by cases z <;> simp <;> omega)
  | succ n ih =>
      intro z x y hsz hy hx
      rcases tree_ops_inv hy with rfl | ⟨d, hd, hyd⟩
      · exact hx
      · have hszd : sizeOf d < sizeOf z := subops_sizeOf hd
        exact mem_tree_ops_of_sub hd (ih d x y (by omega) hyd hx)

theorem tree_ops_trans {z x y : Op} (hy : y ∈ z.tree_ops)
    (hx : x ∈ y.tree_ops) : x ∈ z.tree_ops :=
  tree_ops_trans_aux (sizeOf z) z x y le_rfl hy hx

/-- Per-node requirement for the serialization round trip: the node is
finished (read marks everything finished), and a simple operation is not
named like a complex type tag (true of the seven real operation names). -/
def node_ok (d : Op) : Prop :=
  d.fin = true ∧
    match d with
    | .simple n _ _ _ _ => n ≠ "build_file" ∧ n ≠ "subbuild"
    | _ => True

/-- The record of a tree node is present in the cache maps (trivial for
simple and setup-failed nodes, which are not indexed). -/
def Cache.has_record (c : Cache) (d : Op) : Prop :=
  match d with
  | .build_file f _ _ _ _ _ _ _ _ sf _ =>
      sf = false → alist_get c.files f = some (some d)
  | .subbuild _ _ _ _ _ _ sf _ =>
      sf = false → alist_get c.subbuilds (subbuild_key d) = some (some d)
  | .simple .. => True

/-- No build-file or subbuild operation is still in progress: no
in-progress sentinel entries. -/
def Cache.no_in_progress (c : Cache) : Prop :=
  (∀ p ∈ c.files, p.2.isSome = true) ∧ (∀ p ∈ c.subbuilds, p.2.isSome = true)

/-- Well-formedness of a `Cache` as `FileBuilder` maintains it: keys are
unique; file entries hold finished build-file records filed under their own
filename with `setup_failed = false`, subbuild entries hold subbuild
records under their own cache key; every complex `setup_failed = false`
descendant of a stored record is itself stored; every stored tree node is
finished; and simple operations are not named like complex type tags. -/
structure CacheWF (c : Cache) : Prop where
  files_keys : (c.files.map Prod.fst).Nodup
  subbuilds_keys : (c.subbuilds.map Prod.fst).Nodup
  files_shape : ∀ p ∈ c.files, ∀ op : Op, p.2 = some op →
    ∃ cmp fn a k subs ret fcr ra fi,
      op = .build_file p.1 cmp fn a k subs ret fcr ra false fi
  subbuilds_shape : ∀ p ∈ c.subbuilds, ∀ op : Op, p.2 = some op →
    (∃ fn a k subs ret ra fi, op = .subbuild fn a k subs ret ra false fi) ∧
      subbuild_key op = p.1
  closure : ∀ op ∈ c.operations, ∀ d ∈ op.tree_ops, c.has_record d
  tree_ok : ∀ op ∈ c.operations, ∀ d ∈ op.tree_ops, node_ok d

/-- Claim C6 counterexample: a cache file whose single root operation has
the unknown type `"bogus"` is read back without any error — the operation
parses as a simple-operation record named `"bogus"` — so an unknown `type`
does NOT produce a `CacheFormat` error. -/
theorem C6_counterexample :
    Cache.read_immutable (fun s => s)
      (Json.dict [("software", .str "file_builder"),
        ("cacheFileVersion", .null), ("buildName", .str "b"),
        ("createdDirs", .list []), ("funcVersions", .dict []),
        ("operationVersions", .dict []),
        ("rootOperations", .list [.dict [("type", .str "bogus"),
          ("args", .list []), ("returnValue", .null)]])]) =
      .ok { build_name := "b", files := [], norm_cased_files := [],
            subbuilds := [], created_dirs := [], func_versions := .dict [],
            operation_versions := .dict [] } ∧
    operation_from_json (.dict [("type", .str "bogus"), ("args", .list []),
        ("returnValue", .null)]) =
      some (.simple "bogus" (.list []) .null none true) := by
  have hop : operation_from_json (.dict [("type", .str "bogus"),
      ("args", .list []), ("returnValue", .null)]) =
      some (.simple "bogus" (.list []) .null none true) := by
    rw [operation_from_json]
    simp [jget, dict_get]
  refine ⟨?_, hop⟩
  rw [Cache.read_immutable]
  simp [dict_get, operations_from_json, Cache.mkDerived, strings_of,
    JsonUtil.is_equal]
  rw [hop]
  simp [collect_list, collect_op]

/-- Claim C6 (amended): when `read_immutable` parses an operation whose
`type` value is an unknown string (neither `"build_file"` nor
`"subbuild"`), no error of any kind is raised for it: the operation parses
as a simple-operation record named by that string, whatever the string is.
(The source has no known-operation-name check during parsing.) -/
theorem C6_amended (j : Json) (t : String) (args ret : Json)
    (ht : jget j "type" = some (.str t)) (h1 : t ≠ "build_file")
    (h2 : t ≠ "subbuild") (ha : jget j "args" = some args)
    (hr : jget j "returnValue" = some ret)
    (he : jget j "exceptionType" = none) :
    operation_from_json j = some (.simple t args ret none true) := by
  rw [operation_from_json, ht]
  simp [h1, h2, ha, hr, he]

theorem C6_witness :
    jget (.dict [("type", .str "bogus"), ("args", .list []),
      ("returnValue", .null)]) "type" = some (.str "bogus") ∧
    ("bogus" ≠ "build_file") ∧
    operation_from_json (.dict [("type", .str "bogus"), ("args", .list []),
        ("returnValue", .null)]) =
      some (.simple "bogus" (.list []) .null none true) := by
  refine ⟨by simp [jget, dict_get], by simp, ?_⟩
  exact C6_amended _ "bogus" (.list []) .null (by simp [jget, dict_get])
    (by simp) (by simp) (by simp [jget, dict_get])
    (by simp [jget, dict_get]) (by simp [jget, dict_get])

theorem file_comparison_roundtrip (cmp : FileComparison) :
    file_comparison_of_name cmp.nameStr = some cmp := by
  cases cmp <;> rfl

theorem strings_of_roundtrip (l : List String) :
    strings_of (l.map Json.str) = some l := by
  induction l with
  | nil => rfl
  | cons s rest ih => simp [strings_of, ih]

mutual
theorem op_roundtrip : ∀ op : Op, (∀ d ∈ op.tree_ops, node_ok d) →
    operation_from_json (operation_to_json op) = some op
  | .simple n a r e f, h => by
      have hself := h _ (self_mem_tree_ops (.simple n a r e f))
      simp only [node_ok, Op.fin] at hself
      obtain ⟨hfin, hn1, hn2⟩ := hself
      subst hfin
      cases e with
      | none =>
          rw [operation_to_json, operation_from_json]
          simp [jget, dict_get, hn1, hn2]
      | some ex =>
          rw [operation_to_json, operation_from_json]
          simp [jget, dict_get, hn1, hn2]
  | .build_file f cmp fn args kwargs subs ret fcr ra sf fi, h => by
      have hself := h _ (self_mem_tree_ops
        (.build_file f cmp fn args kwargs subs ret fcr ra sf fi))
      simp only [node_ok, Op.fin] at hself
      obtain ⟨hfin, -⟩ := hself
      subst hfin
      have hsubs : operations_from_json (operations_to_json subs)
          = some subs := by
        apply ops_roundtrip
        intro op2 hop2 d hd
        exact h d (mem_tree_ops_of_sub (by simpa [Op.subops] using hop2) hd)
      cases ra <;> cases sf <;> cases cmp <;>
        (rw [operation_to_json, operation_from_json]
         simp [jget, dict_get, FileComparison.nameStr,
           file_comparison_of_name, get_flag, hsubs])
  | .subbuild fn args kwargs subs ret ra sf fi, h => by
      have hself := h _ (self_mem_tree_ops
        (.subbuild fn args kwargs subs ret ra sf fi))
      simp only [node_ok, Op.fin] at hself
      obtain ⟨hfin, -⟩ := hself
      subst hfin
      have hsubs : operations_from_json (operations_to_json subs)
          = some subs := by
        apply ops_roundtrip
        intro op2 hop2 d hd
        exact h d (mem_tree_ops_of_sub (by simpa [Op.subops] using hop2) hd)
      cases ra <;> cases sf <;>
        (rw [operation_to_json, operation_from_json]
         simp [jget, dict_get, get_flag, hsubs])

theorem ops_roundtrip : ∀ l : List Op,
    (∀ op ∈ l, ∀ d ∈ op.tree_ops, node_ok d) →
    operations_from_json (operations_to_json l) = some l
  | [], _ => by rw [operations_to_json, operations_from_json]
  | op :: rest, h => by
      rw [operations_to_json, operations_from_json]
      rw [op_roundtrip op (h op (List.mem_cons_self _ _)),
        ops_roundtrip rest (fun op2 hop2 => h op2 (List.mem_cons_of_mem _ hop2))]

end

theorem mem_operations {c : Cache} {v : Op} :
    v ∈ c.operations ↔
      (∃ p ∈ c.files, p.2 = some v) ∨ (∃ p ∈ c.subbuilds, p.2 = some v) := by
  rw [Cache.operations, Cache.ops_list, List.reduceOption_mem_iff]
  simp

theorem foldl_append_subops_mem {x : Op} :
    ∀ (l : List Op) (acc : List Op),
      x ∈ l.foldl (fun a o => a ++ o.subops) acc ↔
        x ∈ acc ∨ ∃ o ∈ l, x ∈ o.subops := by
  intro l
  induction l with
  | nil => simp
  | cons o rest ih =>
      intro acc
      rw [List.foldl_cons, ih]
      simp only [List.mem_append, List.mem_cons]
      constructor
      · rintro ((h | h) | ⟨o2, ho2, hx⟩)
        · exact Or.inl h
        · exact Or.inr ⟨o, Or.inl rfl, h⟩
        · exact Or.inr ⟨o2, Or.inr ho2, hx⟩
      · rintro (h | ⟨o2, (rfl | ho2), hx⟩)
        · exact Or.inl (Or.inl h)
        · exact Or.inl (Or.inr hx)
        · exact Or.inr ⟨o2, ho2, hx⟩

theorem mem_non_root {c : Cache} {x : Op} :
    x ∈ c.non_root ↔ ∃ p ∈ c.operations, x ∈ p.subops := by
  rw [Cache.non_root, foldl_append_subops_mem]
  simp

theorem mem_roots {c : Cache} {x : Op} :
    x ∈ c.roots ↔ x ∈ c.operations ∧ ¬ x ∈ c.non_root := by
  rw [Cache.roots, List.mem_filter]
  simp [List.elem_iff]

theorem roots_cover_aux (c : Cache) (bound : Nat)
    (hb : ∀ v ∈ c.operations, sizeOf v < bound) :
    ∀ n : Nat, ∀ v ∈ c.operations, bound - sizeOf v ≤ n →
      ∃ r ∈ c.roots, v ∈ r.tree_ops := by
  intro n
  induction n with
  | zero =>
      intro v hv hsz
      have := hb v hv
      omega
  | succ n ih =>
      intro v hv hsz
      by_cases hnr : v ∈ c.non_root
      · obtain ⟨p, hp, hvp⟩ := mem_non_root.mp hnr
        have hlt : sizeOf v < sizeOf p := subops_sizeOf hvp
        have hpb := hb p hp
        obtain ⟨r, hr, hpr⟩ := ih p hp (by omega)
        exact ⟨r, hr, tree_ops_trans hpr
          (mem_tree_ops_of_sub hvp (self_mem_tree_ops v))⟩
      · exact ⟨v, mem_roots.mpr ⟨hv, hnr⟩, self_mem_tree_ops v⟩

theorem roots_cover (c : Cache) :
    ∀ v ∈ c.operations, ∃ r ∈ c.roots, v ∈ r.tree_ops := by
  intro v hv
  have hb : ∀ w ∈ c.operations, sizeOf w <
      (c.operations.map sizeOf).sum + 1 := by
    intro w hw
    have : sizeOf w ≤ (c.operations.map sizeOf).sum :=
      List.single_le_sum (fun x _ => Nat.zero_le x) _
        (List.mem_map_of_mem sizeOf hw)
    omega
  exact roots_cover_aux c _ hb _ v hv le_rfl

theorem alist_get_insert_cases {κ α : Type} [DecidableEq κ]
    {m : List (κ × α)} {k k2 : κ} {v w : α}
    (h : alist_get (alist_insert m k v) k2 = some w) :
    (k2 = k ∧ w = v) ∨ alist_get m k2 = some w := by
  by_cases hk : k2 = k
  · subst hk
    rw [alist_get_insert_self] at h
    exact Or.inl ⟨rfl, (Option.some.injEq .. ▸ h).symm⟩
  · rw [alist_get_insert_ne _ _ _ _ hk] at h
    exact Or.inr h

theorem alist_get_mem {κ α : Type} [DecidableEq κ]
    {m : List (κ × α)} {k : κ} {v : α} (h : alist_get m k = some v) :
    (k, v) ∈ m := by
  induction m with
  | nil => simp [alist_get] at h
  | cons p rest ih =>
      obtain ⟨k2, w⟩ := p
      rw [alist_get] at h
      split at h
      · rename_i hk
        subst hk
        simp only [Option.some.injEq] at h
        subst h
        exact List.mem_cons_self _ _
      · exact List.mem_cons_of_mem _ (ih h)

/-- The build-file map key a parsed tree node is indexed under, if any. -/
def rec_file_key : Op → Option String
  | .build_file f _ _ _ _ _ _ _ _ sf _ => if sf then none else some f
  | .subbuild .. => none
  | .simple .. => none

/-- The subbuild map key a parsed tree node is indexed under, if any. -/
def rec_subbuild_key : Op → Option Hashable
  | .subbuild fn args kwargs subs ret ra sf fi =>
      if sf then none
      else some (subbuild_key (.subbuild fn args kwargs subs ret ra sf fi))
  | .build_file .. => none
  | .simple .. => none

mutual
theorem collect_op_agree (c : Cache) :
    ∀ (op : Op)
      (acc : List (String × Option Op) × List (Hashable × Option Op)),
      (∀ d ∈ op.tree_ops, c.has_record d) →
      (∀ k v, alist_get acc.1 k = some v → alist_get c.files k = some v) →
      (∀ k v, alist_get acc.2 k = some v → alist_get c.subbuilds k = some v) →
      (∀ k v, alist_get (collect_op op acc).1 k = some v →
        alist_get c.files k = some v) ∧
      (∀ k v, alist_get (collect_op op acc).2 k = some v →
        alist_get c.subbuilds k = some v)
  | .simple .., acc, _, h1, h2 => ⟨h1, h2⟩
  | .build_file f cmp fn args kwargs subs ret fcr ra sf fi, acc, hcl, h1, h2 => by
      have hsub := collect_list_agree c subs acc
        (fun op2 hop2 d hd =>
          hcl d (mem_tree_ops_of_sub (by simpa [Op.subops] using hop2) hd))
        h1 h2
      rw [collect_op]
      cases sf with
      | true => simpa using hsub
      | false =>
          simp only [if_neg (Bool.false_ne_true)]
          have hrec := hcl _ (self_mem_tree_ops
            (.build_file f cmp fn args kwargs subs ret fcr ra false fi))
          rw [Cache.has_record] at hrec
          have hrec2 := hrec rfl
          refine ⟨?_, hsub.2⟩
          intro k v hkv
          rcases alist_get_insert_cases hkv with ⟨rfl, rfl⟩ | hkv2
          · exact hrec2
          · exact hsub.1 k v hkv2
  | .subbuild fn args kwargs subs ret ra sf fi, acc, hcl, h1, h2 => by
      have hsub := collect_list_agree c subs acc
        (fun op2 hop2 d hd =>
          hcl d (mem_tree_ops_of_sub (by simpa [Op.subops] using hop2) hd))
        h1 h2
      rw [collect_op]
      cases sf with
      | true => simpa using hsub
      | false =>
          simp only [if_neg (Bool.false_ne_true)]
          have hrec := hcl _ (self_mem_tree_ops
            (.subbuild fn args kwargs subs ret ra false fi))
          rw [Cache.has_record] at hrec
          have hrec2 := hrec rfl
          refine ⟨hsub.1, ?_⟩
          intro k v hkv
          rcases alist_get_insert_cases hkv with ⟨rfl, rfl⟩ | hkv2
          · exact hrec2
          · exact hsub.2 k v hkv2

theorem collect_list_agree (c : Cache) :
    ∀ (l : List Op)
      (acc : List (String × Option Op) × List (Hashable × Option Op)),
      (∀ op ∈ l, ∀ d ∈ op.tree_ops, c.has_record d) →
      (∀ k v, alist_get acc.1 k = some v → alist_get c.files k = some v) →
      (∀ k v, alist_get acc.2 k = some v → alist_get c.subbuilds k = some v) →
      (∀ k v, alist_get (collect_list l acc).1 k = some v →
        alist_get c.files k = some v) ∧
      (∀ k v, alist_get (collect_list l acc).2 k = some v →
        alist_get c.subbuilds k = some v)
  | [], acc, _, h1, h2 => ⟨h1, h2⟩
  | op :: rest, acc, hcl, h1, h2 => by
      rw [collect_list]
      have hop := collect_op_agree c op acc
        (hcl op (List.mem_cons_self _ _)) h1 h2
      exact collect_list_agree c rest _
        (fun op2 hop2 => hcl op2 (List.mem_cons_of_mem _ hop2)) hop.1 hop.2
end

mutual
theorem collect_op_mono :
    ∀ (op : Op)
      (acc : List (String × Option Op) × List (Hashable × Option Op))
      (k : String) (hk : Hashable),
      ((alist_get acc.1 k).isSome → (alist_get (collect_op op acc).1 k).isSome) ∧
      ((alist_get acc.2 hk).isSome → (alist_get (collect_op op acc).2 hk).isSome)
  | .simple .., acc, k, hk => ⟨id, id⟩
  | .build_file f cmp fn args kwargs subs ret fcr ra sf fi, acc, k, hk => by
      have hsub := collect_list_mono subs acc k hk
      rw [collect_op]
      cases sf with
      | true => simpa using hsub
      | false =>
          simp only [if_neg (Bool.false_ne_true)]
          exact ⟨fun h => alist_get_insert_isSome _ _ _ _ (hsub.1 h),
            hsub.2⟩
  | .subbuild fn args kwargs subs ret ra sf fi, acc, k, hk => by
      have hsub := collect_list_mono subs acc k hk
      rw [collect_op]
      cases sf with
      | true => simpa using hsub
      | false =>
          simp only [if_neg (Bool.false_ne_true)]
          exact ⟨hsub.1,
            fun h => alist_get_insert_isSome _ _ _ _ (hsub.2 h)⟩

theorem collect_list_mono :
    ∀ (l : List Op)
      (acc : List (String × Option Op) × List (Hashable × Option Op))
      (k : String) (hk : Hashable),
      ((alist_get acc.1 k).isSome → (alist_get (collect_list l acc).1 k).isSome) ∧
      ((alist_get acc.2 hk).isSome → (alist_get (collect_list l acc).2 hk).isSome)
  | [], acc, k, hk => ⟨id, id⟩
  | op :: rest, acc, k, hk => by
      rw [collect_list]
      have hop := collect_op_mono op acc k hk
      have hrest := collect_list_mono rest (collect_op op acc) k hk
      exact ⟨fun h => hrest.1 (hop.1 h), fun h => hrest.2 (hop.2 h)⟩
end

mutual
theorem collect_op_covers :
    ∀ (op : Op)
      (acc : List (String × Option Op) × List (Hashable × Option Op)),
      ∀ d ∈ op.tree_ops,
      (∀ f, rec_file_key d = some f →
        (alist_get (collect_op op acc).1 f).isSome = true) ∧
      (∀ hk, rec_subbuild_key d = some hk →
        (alist_get (collect_op op acc).2 hk).isSome = true)
  | .simple n a r e fi, acc, d, hd => by
      simp only [Op.tree_ops, List.mem_singleton] at hd
      subst hd
      simp [rec_file_key, rec_subbuild_key]
  | .build_file f cmp fn args kwargs subs ret fcr ra sf fi, acc, d, hd => by
      rcases tree_ops_inv hd with rfl | ⟨d2, hd2, hdd⟩
      · cases sf with
        | true => simp [rec_file_key, rec_subbuild_key]
        | false =>
            rw [collect_op]
            simp only [if_neg (Bool.false_ne_true)]
            constructor
            · intro f2 hf2
              rw [rec_file_key] at hf2
              simp only [if_neg (Bool.false_ne_true), Option.some.injEq]
                at hf2
              subst hf2
              simp [alist_get_insert_self]
            · intro hk hhk
              rw [rec_subbuild_key] at hhk
              exact absurd hhk (by simp)
      · have hdl : d ∈ Op.tree_ops_list subs :=
          mem_tree_ops_list.mpr ⟨d2, by simpa [Op.subops] using hd2, hdd⟩
        have hsub := collect_list_covers subs acc d hdl
        rw [collect_op]
        cases sf with
        | true => simpa using hsub
        | false =>
            simp only [if_neg (Bool.false_ne_true)]
            exact ⟨fun f2 hf2 =>
              alist_get_insert_isSome _ _ _ _ (hsub.1 f2 hf2),
              hsub.2⟩
  | .subbuild fn args kwargs subs ret ra sf fi, acc, d, hd => by
      rcases tree_ops_inv hd with rfl | ⟨d2, hd2, hdd⟩
      · cases sf with
        | true => simp [rec_file_key, rec_subbuild_key]
        | false =>
            rw [collect_op]
            simp only [if_neg (Bool.false_ne_true)]
            constructor
            · intro f2 hf2
              rw [rec_file_key] at hf2
              exact absurd hf2 (by simp)
            · intro hk hhk
              rw [rec_subbuild_key] at hhk
              simp only [if_neg (Bool.false_ne_true), Option.some.injEq]
                at hhk
              subst hhk
              simp [alist_get_insert_self]
      · have hdl : d ∈ Op.tree_ops_list subs :=
          mem_tree_ops_list.mpr ⟨d2, by simpa [Op.subops] using hd2, hdd⟩
        have hsub := collect_list_covers subs acc d hdl
        rw [collect_op]
        cases sf with
        | true => simpa using hsub
        | false =>
            simp only [if_neg (Bool.false_ne_true)]
            exact ⟨hsub.1,
              fun hk hhk =>
                alist_get_insert_isSome _ _ _ _ (hsub.2 hk hhk)⟩

theorem collect_list_covers :
    ∀ (l : List Op)
      (acc : List (String × Option Op) × List (Hashable × Option Op)),
      ∀ d ∈ Op.tree_ops_list l,
      (∀ f, rec_file_key d = some f →
        (alist_get (collect_list l acc).1 f).isSome = true) ∧
      (∀ hk, rec_subbuild_key d = some hk →
        (alist_get (collect_list l acc).2 hk).isSome = true)
  | [], acc, d, hd => by simp [Op.tree_ops_list] at hd
  | op :: rest, acc, d, hd => by
      rw [Op.tree_ops_list] at hd
      rw [collect_list]
      rcases List.mem_append.mp hd with hd | hd
      · have hop := collect_op_covers op acc d hd
        constructor
        · intro f2 hf2
          exact (collect_list_mono rest (collect_op op acc) f2 .null).1
            (hop.1 f2 hf2)
        · intro hk hhk
          exact (collect_list_mono rest (collect_op op acc) "" hk).2
            (hop.2 hk hhk)
      · exact collect_list_covers rest (collect_op op acc) d hd
end

theorem read_maps_eq (c : Cache) (hwf : CacheWF c) (hnp : c.no_in_progress) :
    (∀ k, alist_get (collect_list c.roots ([], [])).1 k =
      alist_get c.files k) ∧
    (∀ k, alist_get (collect_list c.roots ([], [])).2 k =
      alist_get c.subbuilds k) := by
  have hcl : ∀ op ∈ c.roots, ∀ d ∈ op.tree_ops, c.has_record d :=
    fun op hop => hwf.closure op (mem_roots.mp hop).1
  have hagree := collect_list_agree c c.roots ([], []) hcl
    (fun k v h => by simp [alist_get] at h)
    (fun k v h => by simp [alist_get] at h)
  constructor
  · intro k
    cases hck : alist_get c.files k with
    | none =>
        cases hfin : alist_get (collect_list c.roots ([], [])).1 k with
        | none => rfl
        | some w =>
            have := hagree.1 k w hfin
            rw [hck] at this
            exact absurd this (by simp)
    | some v =>
        have hmem : (k, v) ∈ c.files := alist_get_mem hck
        have hvs : v.isSome = true := hnp.1 _ hmem
        obtain ⟨op, rfl⟩ := Option.isSome_iff_exists.mp hvs
        obtain ⟨cmp, fn, a, kw, subs, ret, fcr, ra, fi, hop⟩ :=
          hwf.files_shape _ hmem _ rfl
        have hopmem : op ∈ c.operations :=
          mem_operations.mpr (Or.inl ⟨(k, some op), hmem, rfl⟩)
        obtain ⟨r, hr, hopr⟩ := roots_cover c op hopmem
        have hkey : rec_file_key op = some k := by
          rw [hop, rec_file_key]
          simp
        have hcov := (collect_list_covers c.roots ([], []) op
          (mem_tree_ops_list.mpr ⟨r, hr, hopr⟩)).1 k hkey
        obtain ⟨w, hw⟩ := Option.isSome_iff_exists.mp hcov
        have hag := hagree.1 k w hw
        rw [hck] at hag
        rw [hw, hag]
  · intro k
    cases hck : alist_get c.subbuilds k with
    | none =>
        cases hfin : alist_get (collect_list c.roots ([], [])).2 k with
        | none => rfl
        | some w =>
            have := hagree.2 k w hfin
            rw [hck] at this
            exact absurd this (by simp)
    | some v =>
        have hmem : (k, v) ∈ c.subbuilds := alist_get_mem hck
        have hvs : v.isSome = true := hnp.2 _ hmem
        obtain ⟨op, rfl⟩ := Option.isSome_iff_exists.mp hvs
        obtain ⟨⟨fn, a, kw, subs, ret, ra, fi, hop⟩, hkeyeq⟩ :=
          hwf.subbuilds_shape _ hmem _ rfl
        have hopmem : op ∈ c.operations :=
          mem_operations.mpr (Or.inr ⟨(k, some op), hmem, rfl⟩)
        obtain ⟨r, hr, hopr⟩ := roots_cover c op hopmem
        have hkey : rec_subbuild_key op = some k := by
          have h2 : subbuild_key op = k := hkeyeq
          rw [hop, rec_subbuild_key]
          simp only [if_neg (Bool.false_ne_true), ← hop, h2]
        have hcov := (collect_list_covers c.roots ([], []) op
          (mem_tree_ops_list.mpr ⟨r, hr, hopr⟩)).2 k hkey
        obtain ⟨w, hw⟩ := Option.isSome_iff_exists.mp hcov
        have hag := hagree.2 k w hw
        rw [hck] at hag
        rw [hw, hag]

/-- Claim C1: for every well-formed cache with no in-progress sentinel
entries, writing it and reading the result back yields a cache with the
same build name, function versions, operation versions, created-dirs set,
and extensionally the same file and subbuild maps (hence the same records
with identical fields). -/
theorem C1_read_write_roundtrip (norm_case : String → String) (c : Cache)
    (hwf : CacheWF c) (hnp : c.no_in_progress) :
    ∃ j c2, c.writeJson = some j ∧
      Cache.read_immutable norm_case j = .ok c2 ∧
      c2.build_name = c.build_name ∧
      c2.func_versions = c.func_versions ∧
      c2.operation_versions = c.operation_versions ∧
      c2.created_dirs = c.created_dirs ∧
      (∀ k, alist_get c2.files k = alist_get c.files k) ∧
      (∀ k, alist_get c2.subbuilds k = alist_get c.subbuilds k) := by
  have hall : c.ops_list.all Option.isSome = true := by
    rw [List.all_eq_true]
    intro x hx
    rw [Cache.ops_list] at hx
    rcases List.mem_append.mp hx with hx2 | hx2 <;>
      obtain ⟨p, hp, rfl⟩ := List.mem_map.mp hx2
    · exact hnp.1 p hp
    · exact hnp.2 p hp
  have hroots_ok : ∀ op ∈ c.roots, ∀ d ∈ op.tree_ops, node_ok d :=
    fun op hop => hwf.tree_ok op (mem_roots.mp hop).1
  have hdecode := ops_roundtrip c.roots hroots_ok
  have hmaps := read_maps_eq c hwf hnp
  refine ⟨Json.dict [("buildName", .str c.build_name),
      ("cacheFileVersion", .null),
      ("createdDirs", .list (c.created_dirs.map Json.str)),
      ("funcVersions", c.func_versions),
      ("operationVersions", c.operation_versions),
      ("rootOperations", .list (operations_to_json c.roots)),
      ("software", .str "file_builder")],
    Cache.mkDerived norm_case c.build_name
      (collect_list c.roots ([], [])).1 (collect_list c.roots ([], [])).2
      c.created_dirs c.func_versions c.operation_versions,
    ?_, ?_, rfl, rfl, rfl, rfl, hmaps.1, hmaps.2⟩
  · rw [Cache.writeJson, if_pos hall]
  · rw [Cache.read_immutable]
    simp only [dict_get]
    simp only [if_neg (by decide : ¬"buildName" = "software"),
      if_neg (by decide : ¬"cacheFileVersion" = "software"),
      if_neg (by decide : ¬"createdDirs" = "software"),
      if_neg (by decide : ¬"funcVersions" = "software"),
      if_neg (by decide : ¬"operationVersions" = "software"),
      if_neg (by decide : ¬"rootOperations" = "software"),
      if_pos (rfl : "software" = "software")]
    simp [dict_get, JsonUtil.is_equal, hdecode, strings_of_roundtrip]

theorem C1_witness :
    CacheWF
      { build_name := "b",
        files := [("x", some (.build_file "x" .METADATA "fn" (.list [])
          (.dict []) [] .null (.dict []) false false true))],
        norm_cased_files := [("x", some (.build_file "x" .METADATA "fn"
          (.list []) (.dict []) [] .null (.dict []) false false true))],
        subbuilds := [], created_dirs := ["d"], func_versions := .dict [],
        operation_versions := .dict [] } ∧
    Cache.no_in_progress
      { build_name := "b",
        files := [("x", some (.build_file "x" .METADATA "fn" (.list [])
          (.dict []) [] .null (.dict []) false false true))],
        norm_cased_files := [("x", some (.build_file "x" .METADATA "fn"
          (.list []) (.dict []) [] .null (.dict []) false false true))],
        subbuilds := [], created_dirs := ["d"], func_versions := .dict [],
        operation_versions := .dict [] } ∧
    (∃ j c2, Cache.writeJson
      { build_name := "b",
        files := [("x", some (.build_file "x" .METADATA "fn" (.list [])
          (.dict []) [] .null (.dict []) false false true))],
        norm_cased_files := [("x", some (.build_file "x" .METADATA "fn"
          (.list []) (.dict []) [] .null (.dict []) false false true))],
        subbuilds := [], created_dirs := ["d"], func_versions := .dict [],
        operation_versions := .dict [] } = some j ∧
      Cache.read_immutable (fun s => s) j = .ok c2 ∧
      c2.build_name = "b" ∧
      c2.func_versions = .dict [] ∧
      c2.operation_versions = .dict [] ∧
      c2.created_dirs = ["d"] ∧
      (∀ k, alist_get c2.files k = alist_get [("x", some (Op.build_file "x"
        .METADATA "fn" (.list []) (.dict []) [] .null (.dict []) false false
        true))] k) ∧
      (∀ k, alist_get c2.subbuilds k =
        alist_get ([] : List (Hashable × Option Op)) k)) := by
  have hwf : CacheWF
      { build_name := "b",
        files := [("x", some (.build_file "x" .METADATA "fn" (.list [])
          (.dict []) [] .null (.dict []) false false true))],
        norm_cased_files := [("x", some (.build_file "x" .METADATA "fn"
          (.list []) (.dict []) [] .null (.dict []) false false true))],
        subbuilds := [], created_dirs := ["d"], func_versions := .dict [],
        operation_versions := .dict [] } := by
    constructor
    · simp
    · simp
    · intro p hp op hop
      simp only [List.mem_singleton] at hp
      subst hp
      simp only [Option.some.injEq] at hop
      subst hop
      exact ⟨.METADATA, "fn", .list [], .dict [], [], .null, .dict [],
        false, true, rfl⟩
    · intro p hp
      simp at hp
    · intro op hop d hd
      simp only [Cache.operations, Cache.ops_list, List.map_cons,
        List.map_nil, List.reduceOption_mem_iff, List.mem_append,
        List.mem_cons, List.not_mem_nil, or_false,
        Option.some.injEq] at hop
      subst hop
      simp only [Op.tree_ops, Op.tree_ops_list, List.mem_singleton,
        List.append_nil, List.mem_cons, List.not_mem_nil, or_false] at hd
      subst hd
      rw [Cache.has_record]
      intro _
      simp [alist_get]
    · intro op hop d hd
      simp only [Cache.operations, Cache.ops_list, List.map_cons,
        List.map_nil, List.reduceOption_mem_iff, List.mem_append,
        List.mem_cons, List.not_mem_nil, or_false,
        Option.some.injEq] at hop
      subst hop
      simp only [Op.tree_ops, Op.tree_ops_list, List.mem_singleton,
        List.append_nil, List.mem_cons, List.not_mem_nil, or_false] at hd
      subst hd
      exact ⟨rfl, trivial⟩
  have hnp : Cache.no_in_progress
      { build_name := "b",
        files := [("x", some (.build_file "x" .METADATA "fn" (.list [])
          (.dict []) [] .null (.dict []) false false true))],
        norm_cased_files := [("x", some (.build_file "x" .METADATA "fn"
          (.list []) (.dict []) [] .null (.dict []) false false true))],
        subbuilds := [], created_dirs := ["d"], func_versions := .dict [],
        operation_versions := .dict [] } := by
    constructor
    · intro p hp
      simp only [List.mem_singleton] at hp
      subst hp
      rfl
    · intro p hp
      simp at hp
  exact ⟨hwf, hnp, C1_read_write_roundtrip (fun s => s) _ hwf hnp⟩

/-- Raised flag of a complex operation (false for a simple operation,
which in Python would be an `AttributeError`; the cache maps never hold
simple operations). -/
def Op.raised_flag : Op → Bool
  | .simple .. => false
  | .build_file _ _ _ _ _ _ _ _ ra _ _ => ra
  | .subbuild _ _ _ _ _ ra _ _ => ra

/-- Python `has_norm_cased_file`: the key is present (also when the value
is the `None` in-progress sentinel). -/
def Cache.has_norm_cased_file (c : Cache) (k : String) : Bool :=
  (alist_get c.norm_cased_files k).isSome

/-- Python `get_norm_cased_file`: the stored record, or `None` both when
the key is absent and when the entry is the in-progress sentinel. -/
def Cache.get_norm_cased_file (c : Cache) (k : String) : Option Op :=
  match alist_get c.norm_cased_files k with
  | some (some op) => some op
  | _ => none

/-- Embedding of `Cache.created_norm_cased_file` (cache.py): the entry
exists, is finished, and did not raise. -/
def Cache.created_norm_cased_file (c : Cache) (k : String) : Bool :=
  match c.get_norm_cased_file k with
  | some op => !op.raised_flag
  | none => false

/-- CreatedFiles models the `CreatedFiles` overlay (created_files.py).
`is_file` only consults the created-file and created-directory sets; the
subfile map and the started counts are carried for completeness. -/
structure CreatedFiles where
  norm_cased_files : List String
  norm_cased_dirs : List String
  norm_cased_dir_to_subfiles : List (String × List (String × String))
  norm_cased_dir_to_started_count : List (String × Nat)

/-- Membership test `CreatedFiles.has_norm_cased_file`. -/
def CreatedFiles.has_norm_cased_file (cf : CreatedFiles) (k : String) : Bool :=
  cf.norm_cased_files.contains k

/-- Membership test `CreatedFiles.has_norm_cased_dir`. -/
def CreatedFiles.has_norm_cased_dir (cf : CreatedFiles) (k : String) : Bool :=
  cf.norm_cased_dirs.contains k

/-- SimpleOperationExecutor models the executor state consulted by
`is_file` (simple_operation_executor.py).  `BuildDirs` and the hash cache
are omitted: `is_file` only feeds `BuildDirs` a side effect that does not
influence its return value. -/
structure SimpleOperationExecutor where
  norm_cased_cache_filename : String
  old_cache : Cache
  new_cache : Cache

/-- Embedding of `SimpleOperationExecutor._is_file_no_read`
(simple_operation_executor.py): the overlay answers first; then the cache
file is never a regular file; then a new-cache entry answers `False` only
when it is the in-progress sentinel (a finished entry falls through to the
file system); then a file created by the previous build answers `False`;
otherwise the real file system decides (`none`). -/
def SimpleOperationExecutor.is_file_no_read (ex : SimpleOperationExecutor)
    (ncf : String) (created_files : Option CreatedFiles) : Option Bool :=
  let fromCaches : Option Bool :=
    if ncf = ex.norm_cased_cache_filename then some false
    else if ex.new_cache.has_norm_cased_file ncf then
      (if ex.new_cache.get_norm_cased_file ncf = none then some false
       else none)
    else if ex.old_cache.created_norm_cased_file ncf then some false
    else none
  match created_files with
  | some cf =>
      if cf.has_norm_cased_file ncf then some true
      else if cf.has_norm_cased_dir ncf then some false
      else fromCaches
  | none => fromCaches

/-- Embedding of `SimpleOperationExecutor.is_file`
(simple_operation_executor.py).  `isfile_fs` is the real file system's
`os.path.isfile`; the `BuildDirs.handle_norm_cased_dir_exists` side effect
performed on a positive stat does not affect the return value and is not
modelled. -/
def SimpleOperationExecutor.is_file (ex : SimpleOperationExecutor)
    (isfile_fs : String → Bool) (norm_case : String → String)
    (filename : String) (created_files : Option CreatedFiles) : Bool :=
  let ncf := norm_case filename
  match ex.is_file_no_read ncf created_files with
  | some b => b
  | none => isfile_fs ncf

/-- Claim C4 counterexample: the new cache holds a FINISHED entry for
`"f"` (a build whose function raised, so the output file was removed and
the real file system reports no file), yet `is_file` returns `false` —
refuting the claim that a new-cache entry makes `is_file` return true iff
the entry is finished.  A finished entry falls through to the real file
system in the source. -/
theorem C4_counterexample :
    SimpleOperationExecutor.is_file
      { norm_cased_cache_filename := "cache",
        old_cache := { build_name := "b", files := [],
                       norm_cased_files := [], subbuilds := [],
                       created_dirs := [], func_versions := .dict [],
                       operation_versions := .dict [] },
        new_cache := { build_name := "b",
                       files := [("f", some (.build_file "f" .METADATA "fn"
                         (.list []) (.dict []) [] .null .null true false
                         true))],
                       norm_cased_files := [("f", some (.build_file "f"
                         .METADATA "fn" (.list []) (.dict []) [] .null .null
                         true false true))],
                       subbuilds := [], created_dirs := [],
                       func_versions := .dict [],
                       operation_versions := .dict [] } }
      (fun _ => false) (fun s => s) "f" none = false ∧
    alist_get [("f", some (Op.build_file "f" .METADATA "fn" (.list [])
      (.dict []) [] .null .null true false true))] "f" =
      some (some (Op.build_file "f" .METADATA "fn" (.list []) (.dict [])
        [] .null .null true false true)) ∧
    (Op.build_file "f" .METADATA "fn" (.list []) (.dict []) [] .null .null
      true false true).fin = true := by
  refine ⟨?_, by simp [alist_get], rfl⟩
  rw [SimpleOperationExecutor.is_file]
  simp [SimpleOperationExecutor.is_file_no_read,
    Cache.has_norm_cased_file, Cache.get_norm_cased_file, alist_get]

/-- Claim C4 (amended): the decision chain of `is_file`.  The overlay
answers first (created file => true, created dir => false); then the cache
file is never a file; then a new-cache IN-PROGRESS entry => false, while a
new-cache FINISHED entry defers to the real file-system check; then a file
created by the previous build => false; otherwise the real file-system
check decides. -/
theorem C4_is_file (ex : SimpleOperationExecutor) (isfile_fs : String → Bool)
    (norm_case : String → String) (filename : String)
    (created_files : Option CreatedFiles) :
    (∀ cf, created_files = some cf →
      cf.has_norm_cased_file (norm_case filename) = true →
      ex.is_file isfile_fs norm_case filename created_files = true) ∧
    (∀ cf, created_files = some cf →
      cf.has_norm_cased_file (norm_case filename) = false →
      cf.has_norm_cased_dir (norm_case filename) = true →
      ex.is_file isfile_fs norm_case filename created_files = false) ∧
    ((∀ cf, created_files = some cf →
        cf.has_norm_cased_file (norm_case filename) = false ∧
        cf.has_norm_cased_dir (norm_case filename) = false) →
      (norm_case filename = ex.norm_cased_cache_filename →
        ex.is_file isfile_fs norm_case filename created_files = false) ∧
      (norm_case filename ≠ ex.norm_cased_cache_filename →
        ex.new_cache.has_norm_cased_file (norm_case filename) = true →
        ex.new_cache.get_norm_cased_file (norm_case filename) = none →
        ex.is_file isfile_fs norm_case filename created_files = false) ∧
      (∀ op, norm_case filename ≠ ex.norm_cased_cache_filename →
        ex.new_cache.has_norm_cased_file (norm_case filename) = true →
        ex.new_cache.get_norm_cased_file (norm_case filename) = some op →
        ex.is_file isfile_fs norm_case filename created_files =
          isfile_fs (norm_case filename)) ∧
      (norm_case filename ≠ ex.norm_cased_cache_filename →
        ex.new_cache.has_norm_cased_file (norm_case filename) = false →
        ex.old_cache.created_norm_cased_file (norm_case filename) = true →
        ex.is_file isfile_fs norm_case filename created_files = false) ∧
      (norm_case filename ≠ ex.norm_cased_cache_filename →
        ex.new_cache.has_norm_cased_file (norm_case filename) = false →
        ex.old_cache.created_norm_cased_file (norm_case filename) = false →
        ex.is_file isfile_fs norm_case filename created_files =
          isfile_fs (norm_case filename))) := by
  rw [SimpleOperationExecutor.is_file]
  refine ⟨?_, ?_, ?_⟩
  · rintro cf rfl hf
    simp [SimpleOperationExecutor.is_file_no_read, hf]
  · rintro cf rfl hf hd
    simp [SimpleOperationExecutor.is_file_no_read, hf, hd]
  · intro hmiss
    have hnr : ex.is_file_no_read (norm_case filename) created_files =
        (if norm_case filename = ex.norm_cased_cache_filename then
          some false
        else if ex.new_cache.has_norm_cased_file (norm_case filename) then
          (if ex.new_cache.get_norm_cased_file (norm_case filename) = none
            then some false else none)
        else if ex.old_cache.created_norm_cased_file (norm_case filename)
          then some false
        else none) := by
      cases created_files with
      | none => rfl
      | some cf =>
          obtain ⟨hf, hd⟩ := hmiss cf rfl
          simp [SimpleOperationExecutor.is_file_no_read, hf, hd]
    refine ⟨?_, ?_, ?_, ?_, ?_⟩
    · intro hcache
      rw [hnr]
      simp [hcache]
    · intro hcache hhas hget
      rw [hnr]
      simp [hcache, hhas, hget]
    · intro op hcache hhas hget
      rw [hnr]
      simp [hcache, hhas, hget]
    · intro hcache hhas hcreated
      rw [hnr]
      simp [hcache, hhas, hcreated]
    · intro hcache hhas hcreated
      rw [hnr]
      simp [hcache, hhas, hcreated]

theorem C4_witness :
    SimpleOperationExecutor.is_file
      { norm_cased_cache_filename := "cache",
        old_cache := { build_name := "b", files := [],
                       norm_cased_files := [], subbuilds := [],
                       created_dirs := [], func_versions := .dict [],
                       operation_versions := .dict [] },
        new_cache := { build_name := "b", files := [],
                       norm_cased_files := [], subbuilds := [],
                       created_dirs := [], func_versions := .dict [],
                       operation_versions := .dict [] } }
      (fun _ => true) (fun s => s) "cache" none = false := by
  have h := (C4_is_file
    { norm_cased_cache_filename := "cache",
      old_cache := { build_name := "b", files := [],
                     norm_cased_files := [], subbuilds := [],
                     created_dirs := [], func_versions := .dict [],
                     operation_versions := .dict [] },
      new_cache := { build_name := "b", files := [],
                     norm_cased_files := [], subbuilds := [],
                     created_dirs := [], func_versions := .dict [],
                     operation_versions := .dict [] } }
    (fun _ => true) (fun s => s) "cache" none).2.2
  exact (h (fun cf hcf => by cases hcf)).1 rfl

/-- Kinds of file-system entries for the backups model. -/
inductive FSEntry where
  | file : FSEntry
  | dir : FSEntry
deriving DecidableEq

/-- Two-digit lowercase hex, as in Python format `{:02x}` for values below
256. -/
def hex2 (n : Nat) : String :=
  if n < 16 then String.mk ['0', Nat.digitChar n]
  else String.mk [Nat.digitChar (n / 16), Nat.digitChar (n % 16)]

/-- The backup path `FileBackups.back_up_and_remove` computes for a given
backup index (file_backups.py): base-128 digits of the index name nested
subdirectories (at most 128 entries each), lowest digit first, and the
final quotient names the file.  `os.path.join` is the POSIX slash. -/
def backup_path (temp_dir : String) (value : Nat) : String :=
  if value ≥ 128 then
    backup_path (temp_dir ++ "/" ++ hex2 (value % 128)) (value / 128)
  else temp_dir ++ "/" ++ "file_" ++ hex2 value
termination_by value
decreasing_by
  simp_wf
  omega

/-- FileBackups models the `FileBackups` state (file_backups.py) inside an
entered scope: the recorded `(original, backup)` pairs, the next backup
index, and the private temp directory. -/
structure FileBackups where
  backups : List (String × String)
  next_backup_index : Nat
  temp_dir : String

/-- Embedding of `FileBackups.back_up_and_remove` (file_backups.py) over a
path-keyed file-system map: allocate the next index, compute the backup
path, and `os.rename` the path into the temp tree.  A missing path is the
caught `FileNotFoundError`; a renamed directory is detected afterwards and
NOT recorded for restore; only an existing regular file is recorded and
reported.  `os.makedirs` of the backup directory happens inside the
private temp tree and needs no representation in the map. -/
def back_up_and_remove (fs : String → Option FSEntry) (st : FileBackups)
    (filename : String) :
    (String → Option FSEntry) × FileBackups × Bool :=
  let value := st.next_backup_index
  let st1 : FileBackups := { st with next_backup_index := value + 1 }
  let backup_filename := backup_path st.temp_dir value
  match fs filename with
  | none => (fs, st1, false)
  | some entry =>
      let fs2 : String → Option FSEntry := fun p =>
        if p = backup_filename then some entry
        else if p = filename then none
        else fs p
      match entry with
      | .dir => (fs2, st1, false)
      | .file =>
          (fs2, { st1 with backups := st1.backups ++ [(filename, backup_filename)] },
            true)

/-- Claim C7: inside an entered scope, `back_up_and_remove(path)` returns
false and records no restore entry when the path does not exist; returns
false and records no restore entry when the renamed path turns out to be a
directory; and returns true exactly when the path was an existing regular
file, in which case the `(original, backup)` pair is recorded and the path
is absent from its original location.  The hypothesis says the path is not
the computed backup path — guaranteed in reality, since backup paths live
inside the scope's fresh private temp directory. -/
theorem C7_back_up_and_remove (fs : String → Option FSEntry)
    (st : FileBackups) (filename : String)
    (hne : filename ≠ backup_path st.temp_dir st.next_backup_index) :
    (fs filename = none →
      (back_up_and_remove fs st filename).2.2 = false ∧
      (back_up_and_remove fs st filename).2.1.backups = st.backups ∧
      (back_up_and_remove fs st filename).1 = fs) ∧
    (fs filename = some .dir →
      (back_up_and_remove fs st filename).2.2 = false ∧
      (back_up_and_remove fs st filename).2.1.backups = st.backups) ∧
    (fs filename = some .file →
      (back_up_and_remove fs st filename).2.2 = true ∧
      (back_up_and_remove fs st filename).2.1.backups =
        st.backups ++
          [(filename, backup_path st.temp_dir st.next_backup_index)] ∧
      (back_up_and_remove fs st filename).1 filename = none) ∧
    ((back_up_and_remove fs st filename).2.2 = true ↔
      fs filename = some .file) := by
  rw [back_up_and_remove]
  refine ⟨?_, ?_, ?_, ?_⟩
  · intro h
    simp [h]
  · intro h
    simp [h]
  · intro h
    simp [h, hne]
  · cases h : fs filename with
    | none => simp
    | some entry => cases entry <;> simp

theorem C7_witness :
    ("a" ≠ backup_path "tmp" 0) ∧
    ((fun p => if p = "a" then some FSEntry.file else none) "a" =
        some .file →
      (back_up_and_remove (fun p => if p = "a" then some .file else none)
        { backups := [], next_backup_index := 0, temp_dir := "tmp" }
        "a").2.2 = true ∧
      (back_up_and_remove (fun p => if p = "a" then some .file else none)
        { backups := [], next_backup_index := 0, temp_dir := "tmp" }
        "a").2.1.backups = [] ++ [("a", backup_path "tmp" 0)] ∧
      (back_up_and_remove (fun p => if p = "a" then some .file else none)
        { backups := [], next_backup_index := 0, temp_dir := "tmp" }
        "a").1 "a" = none) := by
  have hne : "a" ≠ backup_path "tmp" 0 := by
    rw [backup_path]
    simp only [hex2]
    decide
  exact ⟨hne, (C7_back_up_and_remove
    (fun p => if p = "a" then some .file else none)
    { backups := [], next_backup_index := 0, temp_dir := "tmp" }
    "a" hne).2.2.1⟩

/-- Paths for the directory registry: the components of a normalized
absolute path, root first ([] is the file-system root).  `os.path.dirname`
drops the last component. -/
abbrev Path := List String

/-- Embedding of `os.path.dirname` on normalized absolute paths. -/
def dirname (p : Path) : Path := p.dropLast

/-- Componentwise `os.path.normcase` (case folding distributes over the
components of a normalized path). -/
def path_norm_case (ncc : String → String) (p : Path) : Path := p.map ncc

/-- Removal of a key binding from an association list (`dict.pop`). -/
def alist_erase {κ α : Type} [DecidableEq κ] :
    List (κ × α) → κ → List (κ × α)
  | [], _ => []
  | (k2, v) :: rest, k =>
      if k2 = k then rest else (k2, v) :: alist_erase rest k

/-- The real file system under a directory, for the lazy
maybe-removed-directory scan: a regular file, or a directory with its
entries in `os.listdir` order. -/
inductive FSTree where
  | file : FSTree
  | dir (entries : List (String × FSTree)) : FSTree

/-- BuildDirs models the `BuildDirs` state (build_dirs.py).  Python sets
become finite sets, dicts become association lists; the single mutex is
not modelled (each method is one atomic step). -/
structure BuildDirs where
  build_dir_counts : List (Path × Nat)
  created_dirs_map : List (Path × Path)
  error_created_dirs : Finset Path
  exists_dirs : Finset Path
  maybe_removed_dirs : Finset Path
  removed_dirs : Finset Path
  removed_files : Finset Path

/-- First loop of `BuildDirs._handle_dir_exists` (build_dirs.py): walk up
while the directory is neither known to exist nor reserved, dropping it
from the removed sets and adding it to `exists_dirs`; return the state and
the loop variable at exit (the root is its own parent, so one more step
ends the loop there). -/
def hde_loop1 (st : BuildDirs) (p : Path) : BuildDirs × Path :=
  if p ∈ st.exists_dirs ∨ (alist_get st.build_dir_counts p).isSome then
    (st, p)
  else
    let st2 : BuildDirs := { st with
      removed_dirs := st.removed_dirs.erase p
      maybe_removed_dirs := st.maybe_removed_dirs.erase p
      removed_files := st.removed_files.erase p
      exists_dirs := insert p st.exists_dirs }
    if p = [] then (st2, p) else hde_loop1 st2 (dirname p)
termination_by p.length
decreasing_by
  simp_wf
  rename_i hne
  rw [dirname, List.length_dropLast]
  cases p with
  | nil => exact absurd rfl hne
  | cons a l => simp

/-- Second loop of `BuildDirs._handle_dir_exists`: keep adding ancestors
to `exists_dirs` until one is already there. -/
def hde_loop2 (s : Finset Path) (p : Path) : Finset Path :=
  if p ∈ s then s
  else if p = [] then insert p s
  else hde_loop2 (insert p s) (dirname p)
termination_by p.length
decreasing_by
  simp_wf
  rename_i hne
  rw [dirname, List.length_dropLast]
  cases p with
  | nil => simp_all
  | cons a l => simp

/-- Embedding of `BuildDirs.handle_norm_cased_dir_exists` /
`_handle_dir_exists` (build_dirs.py): the two walk-up loops. -/
def BuildDirs.handle_norm_cased_dir_exists (st : BuildDirs) (p : Path) :
    BuildDirs :=
  let r := hde_loop1 st p
  { r.1 with exists_dirs := hde_loop2 r.1.exists_dirs r.2 }

/-- Loop of `BuildDirs.started_building_file` (build_dirs.py): walk up
from the parent of the filename, incrementing reservations; stop after the
first ancestor that already had a positive count; record ownership of
directories from the caller's created list on their first reservation. -/
def sbf_loop (ncc : String → String) (st : BuildDirs)
    (prev_parent parent : Path) (created_dirs_set : List Path)
    (locked : List Path) : BuildDirs × List Path :=
  if parent = prev_parent then (st, locked)
  else
    let ncp := path_norm_case ncc parent
    let count := (alist_get st.build_dir_counts ncp).getD 0
    let st1 : BuildDirs := { st with
      build_dir_counts := alist_insert st.build_dir_counts ncp (count + 1) }
    if count > 0 then (st1, locked)
    else
      let next :=
        if parent ∈ created_dirs_set then
          ({ st1 with
            created_dirs_map := alist_insert st1.created_dirs_map ncp parent
            error_created_dirs := st1.error_created_dirs.erase ncp
            removed_files := st1.removed_files.erase ncp },
           locked ++ [parent])
        else (st1, locked)
      if parent = [] then next
      else sbf_loop ncc next.1 parent (dirname parent) created_dirs_set next.2
termination_by parent.length
decreasing_by
  simp_wf
  rename_i hne _
  rw [dirname, List.length_dropLast]
  cases parent with
  | nil => simp_all
  | cons a l => simp

/-- Embedding of `BuildDirs.started_building_file` (build_dirs.py). -/
def BuildDirs.started_building_file (ncc : String → String) (st : BuildDirs)
    (filename : Path) (created_dirs : List Path) : BuildDirs × List Path :=
  let st0 : BuildDirs := { st with
    removed_files := st.removed_files.erase (path_norm_case ncc filename) }
  sbf_loop ncc st0 filename (dirname filename) created_dirs []

/-- Loop of `BuildDirs.error_building_file` (build_dirs.py): walk up
decrementing reservations; when a count reaches zero, drop the reservation
and, if this build had created the directory, move it to the
error-created and maybe-removed sets and clear `exists_dirs` (which cannot
lose single members without breaking the parent-closure).  A missing count
is a Python `KeyError`, modelled as an error carrying the state so far. -/
def ebf_loop (st : BuildDirs) (prev_parent parent : Path) :
    Except BuildDirs BuildDirs :=
  if parent = prev_parent then .ok st
  else
    match alist_get st.build_dir_counts parent with
    | none => .error st
    | some c =>
        let count := c - 1
        if count > 0 then
          .ok { st with
            build_dir_counts := alist_insert st.build_dir_counts parent count }
        else
          let st1 : BuildDirs := { st with
            build_dir_counts := alist_erase st.build_dir_counts parent }
          let st2 : BuildDirs :=
            if (alist_get st1.created_dirs_map parent).isSome then
              { st1 with
                created_dirs_map := alist_erase st1.created_dirs_map parent
                error_created_dirs := insert parent st1.error_created_dirs
                maybe_removed_dirs := insert parent st1.maybe_removed_dirs
                exists_dirs := ∅ }
            else st1
          if parent = [] then .ok st2 else ebf_loop st2 parent (dirname parent)
termination_by parent.length
decreasing_by
  simp_wf
  rename_i hne _
  rw [dirname, List.length_dropLast]
  cases parent with
  | nil => simp_all
  | cons a l => simp

/-- Embedding of `BuildDirs.error_building_file` (build_dirs.py). -/
def BuildDirs.error_building_file (ncc : String → String) (st : BuildDirs)
    (filename : Path) : Except BuildDirs BuildDirs :=
  ebf_loop st (path_norm_case ncc filename)
    (dirname (path_norm_case ncc filename))

mutual
/-- Embedding of `BuildDirs._check_maybe_removed_dir` (build_dirs.py).
`t` is the real file system under the norm-cased directory `d` (a missing
directory is `none`).  The method drops `d` from the maybe-removed set,
scans its entries, and either confirms removal or records the externally
materialized content as existing. -/
def check_maybe_removed_dir (ncc : String → String) (st : BuildDirs)
    (d : Path) (t : Option FSTree) : BuildDirs × Bool :=
  let st0 : BuildDirs :=
    { st with maybe_removed_dirs := st.maybe_removed_dirs.erase d }
  match t with
  | none => ({ st0 with removed_dirs := insert d st0.removed_dirs }, true)
  | some .file =>
      (BuildDirs.handle_norm_cased_dir_exists st0 (dirname d), false)
  | some (.dir entries) => check_subfiles ncc st0 d entries

/-- Loop of `_check_maybe_removed_dir` over the directory entries.  The
kind of each entry comes from the listing itself (the Python code stats
the norm-cased child path, which resolves to the listed entry on the
platforms where `os.path.normcase` folds the case). -/
def check_subfiles (ncc : String → String) (st : BuildDirs) (d : Path) :
    List (String × FSTree) → BuildDirs × Bool
  | [] => ({ st with removed_dirs := insert d st.removed_dirs }, true)
  | (name, sub) :: rest =>
      let child := d ++ [ncc name]
      if child ∈ st.removed_dirs then
        match sub with
        | .file => (BuildDirs.handle_norm_cased_dir_exists st d, false)
        | .dir _ => check_subfiles ncc st d rest
      else if child ∈ st.removed_files then
        match sub with
        | .dir _ => (BuildDirs.handle_norm_cased_dir_exists st child, false)
        | .file => check_subfiles ncc st d rest
      else if child ∈ st.maybe_removed_dirs then
        match check_maybe_removed_dir ncc st child (some sub) with
        | (st2, false) => (st2, false)
        | (st2, true) => check_subfiles ncc st2 d rest
      else
        match sub with
        | .dir _ => (BuildDirs.handle_norm_cased_dir_exists st child, false)
        | .file => (BuildDirs.handle_norm_cased_dir_exists st d, false)
end

/-- Embedding of `BuildDirs.is_removed_norm_case` (build_dirs.py).  `t`
is the real file system under `d`. -/
def BuildDirs.is_removed_norm_case (ncc : String → String) (st : BuildDirs)
    (d : Path) (t : Option FSTree) : BuildDirs × Bool :=
  if (alist_get st.build_dir_counts d).isSome then (st, false)
  else if d ∈ st.removed_dirs then (st, true)
  else if d ∉ st.maybe_removed_dirs then (st, false)
  else check_maybe_removed_dir ncc st d t

/-- The closure invariant of `exists_dirs`: it contains the parent of
each of its members. -/
def ParentClosed (s : Finset Path) : Prop :=
  ∀ p ∈ s, dirname p ∈ s

/-- Weakening used while a walk-up loop is in flight: every member's
parent is present, except possibly parents equal to the loop's current
position. -/
def AlmostClosed (s : Finset Path) (p : Path) : Prop :=
  ∀ q ∈ s, dirname q ∈ s ∨ dirname q = p

theorem parentClosed_almost {s : Finset Path} (h : ParentClosed s)
    (p : Path) : AlmostClosed s p :=
  fun q hq => Or.inl (h q hq)

theorem parentClosed_empty : ParentClosed (∅ : Finset Path) := by
  intro p hp
  simp at hp

/-- An almost-closed set whose exceptional position is a member is fully
closed. -/
theorem almostClosed_mem {s : Finset Path} {p : Path}
    (h : AlmostClosed s p) (hp : p ∈ s) : ParentClosed s := by
  intro q hq
  rcases h q hq with h2 | h2
  · exact h2
  · exact h2 ▸ hp

/-- Walking the current position into an almost-closed set keeps it
almost closed at the parent position. -/
theorem almostClosed_insert {s : Finset Path} {p : Path}
    (h : AlmostClosed s p) : AlmostClosed (insert p s) (dirname p) := by
  intro q hq
  rcases Finset.mem_insert.1 hq with rfl | hq2
  · exact Or.inr rfl
  · rcases h q hq2 with h2 | h2
    · exact Or.inl (Finset.mem_insert_of_mem h2)
    · exact Or.inl (h2 ▸ Finset.mem_insert_self _ _)

theorem dirname_nil : dirname ([] : Path) = [] := rfl

theorem dirname_length_le {p : Path} {n : Nat} (h : p.length ≤ n + 1) :
    (dirname p).length ≤ n := by
  rw [dirname, List.length_dropLast]
  omega

/-- The second walk-up loop restores full closure from the almost-closed
state the first loop hands over. -/
theorem hde_loop2_closed :
    ∀ (n : Nat) (p : Path), p.length ≤ n → ∀ (s : Finset Path),
      AlmostClosed s p → ParentClosed (hde_loop2 s p) := by
  intro n
  induction n with
  | zero =>
      intro p hlen s h
      have hp : p = [] := List.length_eq_zero.1 (Nat.le_zero.1 hlen)
      subst hp
      rw [hde_loop2]
      by_cases hmem : ([] : Path) ∈ s
      · simp only [hmem, if_pos]
        exact almostClosed_mem h hmem
      · simp only [hmem, if_neg, if_pos, if_true]
        exact almostClosed_mem (dirname_nil ▸ almostClosed_insert h)
          (Finset.mem_insert_self _ _)
  | succ n ih =>
      intro p hlen s h
      rw [hde_loop2]
      by_cases hmem : p ∈ s
      · simp only [hmem, if_pos]
        exact almostClosed_mem h hmem
      · simp only [hmem, if_neg]
        by_cases hnil : p = []
        · subst hnil
          simp only [if_pos, if_true]
          exact almostClosed_mem (dirname_nil ▸ almostClosed_insert h)
            (Finset.mem_insert_self _ _)
        · simp only [hnil, if_neg]
          exact ih (dirname p) (dirname_length_le hlen) (insert p s)
            (almostClosed_insert h)

/-- The first walk-up loop keeps the exists-set almost closed at the
position it hands over. -/
theorem hde_loop1_almost :
    ∀ (n : Nat) (p : Path), p.length ≤ n → ∀ (st : BuildDirs),
      AlmostClosed st.exists_dirs p →
      AlmostClosed (hde_loop1 st p).1.exists_dirs (hde_loop1 st p).2 := by
  intro n
  induction n with
  | zero =>
      intro p hlen st h
      have hp : p = [] := List.length_eq_zero.1 (Nat.le_zero.1 hlen)
      subst hp
      rw [hde_loop1]
      by_cases hstop : ([] : Path) ∈ st.exists_dirs ∨
          (alist_get st.build_dir_counts []).isSome
      · simp only [hstop, if_pos]
        exact h
      · simp only [hstop, if_neg, if_pos, if_true]
        exact dirname_nil ▸ almostClosed_insert h
  | succ n ih =>
      intro p hlen st h
      rw [hde_loop1]
      by_cases hstop : p ∈ st.exists_dirs ∨
          (alist_get st.build_dir_counts p).isSome
      · simp only [hstop, if_pos]
        exact h
      · simp only [hstop, if_neg]
        by_cases hnil : p = []
        · subst hnil
          simp only [if_pos, if_true]
          exact dirname_nil ▸ almostClosed_insert h
        · simp only [hnil, if_neg]
          exact ih (dirname p) (dirname_length_le hlen) _
            (almostClosed_insert h)

/-- `handle_norm_cased_dir_exists` preserves the parent-closure of
`exists_dirs`. -/
theorem handle_dir_exists_closed (st : BuildDirs) (p : Path)
    (h : ParentClosed st.exists_dirs) :
    ParentClosed (st.handle_norm_cased_dir_exists p).exists_dirs := by
  rw [BuildDirs.handle_norm_cased_dir_exists]
  exact hde_loop2_closed (hde_loop1 st p).2.length _ le_rfl _
    (hde_loop1_almost p.length p le_rfl st (parentClosed_almost h p))

/-- The started-building loop never touches `exists_dirs`. -/
theorem sbf_loop_exists_dirs (ncc : String → String) :
    ∀ (n : Nat) (parent : Path), parent.length ≤ n →
      ∀ (st : BuildDirs) (prev_parent : Path) (cds locked : List Path),
      (sbf_loop ncc st prev_parent parent cds locked).1.exists_dirs =
        st.exists_dirs := by
  intro n
  induction n with
  | zero =>
      intro parent hlen st prev cds locked
      have hp : parent = [] := List.length_eq_zero.1 (Nat.le_zero.1 hlen)
      subst hp
      rw [sbf_loop]
      by_cases hpp : ([] : Path) = prev
      · simp [hpp]
      · simp only [hpp, if_neg]
        by_cases hc :
            (alist_get st.build_dir_counts (path_norm_case ncc [])).getD 0 > 0
        · simp [hc]
        · by_cases hin : ([] : Path) ∈ cds <;> simp [hc, hin]
  | succ n ih =>
      intro parent hlen st prev cds locked
      rw [sbf_loop]
      by_cases hpp : parent = prev
      · simp [hpp]
      · simp only [hpp, if_neg]
        by_cases hc :
            (alist_get st.build_dir_counts
              (path_norm_case ncc parent)).getD 0 > 0
        · simp [hc]
        · by_cases hnil : parent = []
          · subst hnil
            by_cases hin : ([] : Path) ∈ cds <;> simp [hc, hin]
          · by_cases hin : parent ∈ cds <;>
              simp [hc, hin, hnil, ih (dirname parent) (dirname_length_le hlen)]

/-- `started_building_file` preserves the parent-closure of
`exists_dirs` (it never modifies the set). -/
theorem started_building_file_closed (ncc : String → String)
    (st : BuildDirs) (filename : Path) (cds : List Path)
    (h : ParentClosed st.exists_dirs) :
    ParentClosed
      (st.started_building_file ncc filename cds).1.exists_dirs := by
  rw [BuildDirs.started_building_file]
  rw [sbf_loop_exists_dirs ncc (dirname filename).length _ le_rfl]
  exact h

/-- The state in which an `error_building_file` walk ends, whether it
returns or raises `KeyError`. -/
def exceptState (e : Except BuildDirs BuildDirs) : BuildDirs :=
  match e with
  | .ok st => st
  | .error st => st

/-- Each step of the error-building walk either leaves `exists_dirs`
unchanged or empties it, so closure is preserved throughout. -/
theorem ebf_loop_closed :
    ∀ (n : Nat) (parent : Path), parent.length ≤ n →
      ∀ (st : BuildDirs) (prev_parent : Path),
      ParentClosed st.exists_dirs →
      ParentClosed
        (exceptState (ebf_loop st prev_parent parent)).exists_dirs := by
  intro n
  induction n with
  | zero =>
      intro parent hlen st prev h
      have hp : parent = [] := List.length_eq_zero.1 (Nat.le_zero.1 hlen)
      subst hp
      rw [ebf_loop]
      by_cases hpp : ([] : Path) = prev
      · simpa [hpp, exceptState] using h
      · simp only [hpp, if_neg]
        match hg : alist_get st.build_dir_counts [] with
        | none => simpa [exceptState] using h
        | some c =>
            simp only
            by_cases hc : c - 1 > 0
            · simpa [hc, exceptState] using h
            · simp only [hc, if_neg, if_false, if_pos, if_true]
              by_cases hcd :
                  (alist_get st.created_dirs_map []).isSome
              · simp [hcd, exceptState, parentClosed_empty]
              · simpa [hcd, exceptState] using h
  | succ n ih =>
      intro parent hlen st prev h
      rw [ebf_loop]
      by_cases hpp : parent = prev
      · simpa [hpp, exceptState] using h
      · simp only [hpp, if_neg]
        match hg : alist_get st.build_dir_counts parent with
        | none => simpa [exceptState] using h
        | some c =>
            simp only
            by_cases hc : c - 1 > 0
            · simpa [hc, exceptState] using h
            · by_cases hnil : parent = []
              · subst hnil
                simp only [hc, if_neg, if_false, if_pos, if_true]
                by_cases hcd :
                    (alist_get st.created_dirs_map []).isSome
                · simp [hcd, exceptState, parentClosed_empty]
                · simpa [hcd, exceptState] using h
              · simp only [hc, hnil, if_neg, if_false]
                by_cases hcd :
                    (alist_get st.created_dirs_map parent).isSome
                · simp only [hcd, if_pos]
                  exact ih _ (dirname_length_le hlen) _ _ parentClosed_empty
                · simp only [hcd, if_neg]
                  exact ih _ (dirname_length_le hlen) _ _ h

/-- `error_building_file` preserves the parent-closure of `exists_dirs`:
losing a created directory clears the whole set rather than breaking
closure, and a `KeyError` mid-walk leaves it closed too. -/
theorem error_building_file_closed (ncc : String → String)
    (st : BuildDirs) (filename : Path)
    (h : ParentClosed st.exists_dirs) :
    ParentClosed
      (exceptState (st.error_building_file ncc filename)).exists_dirs := by
  rw [BuildDirs.error_building_file]
  exact ebf_loop_closed (dirname (path_norm_case ncc filename)).length _
    le_rfl _ _ h

mutual
/-- The lazy maybe-removed-directory scan only touches `exists_dirs`
through `handle_norm_cased_dir_exists`, so closure is preserved. -/
theorem check_maybe_removed_dir_closed (ncc : String → String) :
    ∀ (st : BuildDirs) (d : Path) (t : Option FSTree),
      ParentClosed st.exists_dirs →
      ParentClosed (check_maybe_removed_dir ncc st d t).1.exists_dirs
  | st, d, none, h => by
      rw [check_maybe_removed_dir]
      exact h
  | st, d, some .file, h => by
      rw [check_maybe_removed_dir]
      exact handle_dir_exists_closed _ _ h
  | st, d, some (.dir entries), h => by
      rw [check_maybe_removed_dir]
      exact check_subfiles_closed ncc _ d entries h

theorem check_subfiles_closed (ncc : String → String) :
    ∀ (st : BuildDirs) (d : Path) (entries : List (String × FSTree)),
      ParentClosed st.exists_dirs →
      ParentClosed (check_subfiles ncc st d entries).1.exists_dirs
  | st, d, [], h => by
      rw [check_subfiles.eq_def]
      exact h
  | st, d, (name, sub) :: rest, h => by
      rw [check_subfiles.eq_def]
      by_cases h1 : d ++ [ncc name] ∈ st.removed_dirs
      · simp only [h1, if_pos]
        cases sub with
        | file => exact handle_dir_exists_closed _ _ h
        | dir es => exact check_subfiles_closed ncc st d rest h
      · simp only [h1, if_neg]
        by_cases h2 : d ++ [ncc name] ∈ st.removed_files
        · simp only [h2, if_pos]
          cases sub with
          | dir es => exact handle_dir_exists_closed _ _ h
          | file => exact check_subfiles_closed ncc st d rest h
        · simp only [h2, if_neg]
          by_cases h3 : d ++ [ncc name] ∈ st.maybe_removed_dirs
          · simp only [h3, if_pos]
            have hrec := check_maybe_removed_dir_closed ncc st
              (d ++ [ncc name]) (some sub) h
            match hres : check_maybe_removed_dir ncc st (d ++ [ncc name])
                (some sub) with
            | (st2, false) =>
                simp only
                rw [hres] at hrec
                exact hrec
            | (st2, true) =>
                simp only
                rw [hres] at hrec
                exact check_subfiles_closed ncc st2 d rest hrec
          · simp only [h3, if_neg]
            cases sub with
            | dir es => exact handle_dir_exists_closed _ _ h
            | file => exact handle_dir_exists_closed _ _ h
end

/-- `is_removed_norm_case` preserves the parent-closure of
`exists_dirs`. -/
theorem is_removed_norm_case_closed (ncc : String → String)
    (st : BuildDirs) (d : Path) (t : Option FSTree)
    (h : ParentClosed st.exists_dirs) :
    ParentClosed (st.is_removed_norm_case ncc d t).1.exists_dirs := by
  rw [BuildDirs.is_removed_norm_case]
  by_cases h1 : (alist_get st.build_dir_counts d).isSome
  · simpa [h1] using h
  · simp only [h1, if_neg, Bool.false_eq_true, if_false]
    by_cases h2 : d ∈ st.removed_dirs
    · simpa [h2] using h
    · simp only [h2, if_neg, if_false]
      by_cases h3 : d ∈ st.maybe_removed_dirs
      · simp only [h3, not_true, if_neg, if_false]
        exact check_maybe_removed_dir_closed ncc st d t h
      · simpa [h3] using h

/-- Claim C8: `exists_dirs` is closed under taking the parent directory,
and every BuildDirs operation — `handle_norm_cased_dir_exists`,
`started_building_file`, `error_building_file` (which clears the set
rather than break closure, and whose `KeyError` is modelled as the error
branch), and `is_removed_norm_case` — preserves this invariant. -/
theorem C8_exists_dirs_closed (ncc : String → String) (st : BuildDirs)
    (p d filename : Path) (cds : List Path) (t : Option FSTree)
    (h : ParentClosed st.exists_dirs) :
    ParentClosed (st.handle_norm_cased_dir_exists p).exists_dirs ∧
    ParentClosed
      (st.started_building_file ncc filename cds).1.exists_dirs ∧
    ParentClosed
      (exceptState (st.error_building_file ncc filename)).exists_dirs ∧
    ParentClosed (st.is_removed_norm_case ncc d t).1.exists_dirs :=
  ⟨handle_dir_exists_closed st p h,
   started_building_file_closed ncc st filename cds h,
   error_building_file_closed ncc st filename h,
   is_removed_norm_case_closed ncc st d t h⟩

theorem C8_witness :
    ParentClosed
      (BuildDirs.mk [] [] ∅ ∅ ∅ ∅ ∅).exists_dirs ∧
    ParentClosed
      ((BuildDirs.mk [] [] ∅ ∅ ∅ ∅ ∅).handle_norm_cased_dir_exists
        ["home", "x"]).exists_dirs ∧
    ParentClosed
      ((BuildDirs.mk [] [] ∅ ∅ ∅ ∅ ∅).started_building_file id
        ["home", "x", "f.txt"] [["home", "x"]]).1.exists_dirs ∧
    ParentClosed
      (exceptState ((BuildDirs.mk [] [] ∅ ∅ ∅ ∅ ∅).error_building_file id
        ["home", "x", "f.txt"])).exists_dirs ∧
    ParentClosed
      ((BuildDirs.mk [] [] ∅ ∅ ∅ ∅ ∅).is_removed_norm_case id
        ["home", "x"] (some (.dir []))).1.exists_dirs := by
  have h : ParentClosed (BuildDirs.mk [] [] ∅ ∅ ∅ ∅ ∅).exists_dirs :=
    parentClosed_empty
  have hmain := C8_exists_dirs_closed id (BuildDirs.mk [] [] ∅ ∅ ∅ ∅ ∅)
    ["home", "x"] ["home", "x"] ["home", "x", "f.txt"] [["home", "x"]]
    (some (.dir [])) h
  exact ⟨h, hmain.1, hmain.2.1, hmain.2.2.1, hmain.2.2.2⟩

/-- `Cache.created_files` (cache.py): the filenames of the finished file
entries whose build did not raise (in-progress `None` sentinels are
skipped). -/
def Cache.created_files (c : Cache) : List String :=
  (c.files.filter (fun p => match p.2 with
    | some op => !op.raised_flag
    | none => false)).map Prod.fst

/-- An entry of the on-disk state used by `FileBuilder.clean`: a regular
file with its (parsed) contents, or a directory. -/
inductive DiskEntry where
  | file (content : Json) : DiskEntry
  | dir : DiskEntry
deriving DecidableEq

/-- The on-disk state: a finite map from component paths to entries.  A
well-formed disk binds each path once. -/
abbrev Disk := List (Path × DiskEntry)

/-- Embedding of `FileBuilder._try_to_remove_file` (file_builder.py):
`os.remove` the path if `os.path.isfile`, and swallow failures.  The pure
disk has no external interference, so the removal of an existing regular
file succeeds.  Also returns the list of paths removed. -/
def FileBuilder.try_to_remove_file (fs : Disk) (p : Path) :
    Disk × List Path :=
  match alist_get fs p with
  | some (.file _) => (alist_erase fs p, [p])
  | _ => (fs, [])

/-- One `os.rmdir` attempt of `FileBuilder._remove_empty_dirs`: the call
succeeds only on an existing directory with no entries strictly below it,
and any `OSError` is swallowed. -/
def rmdir_if_empty (fs : Disk) (p : Path) : Disk × List Path :=
  match alist_get fs p with
  | some .dir =>
      if fs.any (fun e => p.isPrefixOf e.1 && decide (e.1 ≠ p)) then (fs, [])
      else (alist_erase fs p, [p])
  | _ => (fs, [])

/-- The removal loop of `FileBuilder.clean` over `cache.created_files()`.
The `toPath` parameter embeds `os.path`'s parse of a normalized absolute
filename into components. -/
def remove_files (toPath : String → Path) :
    Disk → List String → Disk × List Path
  | fs, [] => (fs, [])
  | fs, n :: rest =>
      let r := FileBuilder.try_to_remove_file fs (toPath n)
      let r2 := remove_files toPath r.1 rest
      (r2.1, r.2 ++ r2.2)

/-- The `os.rmdir` loop of `FileBuilder._remove_empty_dirs`. -/
def remove_dirs_loop : Disk → List Path → Disk × List Path
  | fs, [] => (fs, [])
  | fs, d :: rest =>
      let r := rmdir_if_empty fs d
      let r2 := remove_dirs_loop r.1 rest
      (r2.1, r.2 ++ r2.2)

/-- Embedding of `FileBuilder._remove_empty_dirs` (file_builder.py):
attempt `os.rmdir` on each directory, deepest (longest filename) first —
`sorted(dirs, key=lambda dir_: -len(dir_))`, a stable sort. -/
def FileBuilder.remove_empty_dirs (toPath : String → Path) (fs : Disk)
    (dirs : List String) : Disk × List Path :=
  remove_dirs_loop fs
    ((dirs.mergeSort (fun a b => decide (b.length ≤ a.length))).map toPath)

/-- The removal phase of `FileBuilder.clean`: remove the created files,
then the cache file, then the empty created directories. -/
def clean_removals (toPath : String → Path) (fs : Disk)
    (cache_filename : String) (c : Cache) : Disk × List Path :=
  let r1 := remove_files toPath fs c.created_files
  let r2 := FileBuilder.try_to_remove_file r1.1 (toPath cache_filename)
  let r3 := FileBuilder.remove_empty_dirs toPath r2.1 c.created_dirs
  (r3.1, r1.2 ++ r2.2 ++ r3.2)

/-- Exceptions `FileBuilder.clean` can raise: an `OSError` opening the
cache path (it exists but is a directory), a cache parse failure, or the
build-name mismatch `RuntimeError`. -/
inductive CleanError where
  | os_error : CleanError
  | read (e : ReadError) : CleanError
  | build_name_mismatch : CleanError
deriving DecidableEq

/-- Embedding of `FileBuilder.clean` (file_builder.py) over the pure disk
(file contents stand for their parsed JSON): a missing cache file is a
no-op; otherwise read the cache, check the build name when one is given,
and run the removal phase.  Returns the resulting disk and the list of
removed paths. -/
def FileBuilder.clean (ncc : String → String) (toPath : String → Path)
    (fs : Disk) (cache_filename : String) (build_name : Option String) :
    Except CleanError (Disk × List Path) :=
  match alist_get fs (toPath cache_filename) with
  | none => .ok (fs, [])
  | some .dir => .error .os_error
  | some (.file j) =>
      match Cache.read_immutable ncc j with
      | .error e => .error (.read e)
      | .ok c =>
          match build_name with
          | some bn =>
              if c.build_name = bn then
                .ok (clean_removals toPath fs cache_filename c)
              else .error .build_name_mismatch
          | none => .ok (clean_removals toPath fs cache_filename c)

/-- `fs2` holds a subset of the bindings of `fs1`: no key gains or
changes a value, it can only disappear. -/
def ErasedFrom (fs2 fs1 : Disk) : Prop :=
  ∀ k, alist_get fs2 k = alist_get fs1 k ∨ alist_get fs2 k = none

theorem erasedFrom_refl (fs : Disk) : ErasedFrom fs fs :=
  fun _ => Or.inl rfl

theorem erasedFrom_trans {fs3 fs2 fs1 : Disk} (h32 : ErasedFrom fs3 fs2)
    (h21 : ErasedFrom fs2 fs1) : ErasedFrom fs3 fs1 := by
  intro k
  rcases h32 k with h3 | h3
  · rcases h21 k with h2 | h2
    · exact Or.inl (h3.trans h2)
    · exact Or.inr (h3.trans h2)
  · exact Or.inr h3

theorem alist_erase_sublist {κ α : Type} [DecidableEq κ] :
    ∀ (m : List (κ × α)) (k : κ), List.Sublist (alist_erase m k) m := by
  intro m k
  induction m with
  | nil => simp [alist_erase]
  | cons e rest ih =>
      obtain ⟨k2, v⟩ := e
      rw [alist_erase]
      by_cases h : k2 = k
      · simp only [h, if_pos]
        exact List.sublist_cons_self (k, v) rest
      · simp only [h, if_neg]
        exact List.Sublist.cons₂ (k2, v) ih

theorem alist_get_eq_none_of_not_mem {κ α : Type} [DecidableEq κ] :
    ∀ (m : List (κ × α)) (k : κ), k ∉ m.map Prod.fst →
      alist_get m k = none := by
  intro m k h
  induction m with
  | nil => rfl
  | cons e rest ih =>
      obtain ⟨k2, v⟩ := e
      simp only [List.map_cons, List.mem_cons] at h
      push_neg at h
      rw [alist_get]
      simp only [Ne.symm h.1, if_neg, if_false]
      exact ih h.2

theorem alist_erase_get_ne {κ α : Type} [DecidableEq κ] :
    ∀ (m : List (κ × α)) (k k2 : κ), k2 ≠ k →
      alist_get (alist_erase m k) k2 = alist_get m k2 := by
  intro m k k2 hne
  induction m with
  | nil => rfl
  | cons e rest ih =>
      obtain ⟨k3, v⟩ := e
      rw [alist_erase]
      by_cases h : k3 = k
      · simp only [h, if_pos]
        rw [alist_get]
        simp only [Ne.symm hne, if_neg, if_false]
      · simp only [h, if_neg]
        simp only [alist_get]
        by_cases h2 : k3 = k2
        · simp [h2]
        · simp only [h2, if_neg, if_false]
          exact ih

theorem alist_erase_get_self {κ α : Type} [DecidableEq κ] :
    ∀ (m : List (κ × α)) (k : κ), (m.map Prod.fst).Nodup →
      alist_get (alist_erase m k) k = none := by
  intro m k hnd
  induction m with
  | nil => rfl
  | cons e rest ih =>
      obtain ⟨k2, v⟩ := e
      simp only [List.map_cons, List.nodup_cons] at hnd
      rw [alist_erase]
      by_cases h : k2 = k
      · simp only [h, if_pos]
        apply alist_get_eq_none_of_not_mem
        exact h ▸ hnd.1
      · simp only [h, if_neg]
        simp only [alist_get]
        simp only [h, if_neg, if_false]
        exact ih hnd.2

theorem alist_erase_nodup {κ α : Type} [DecidableEq κ]
    {m : List (κ × α)} (k : κ) (hnd : (m.map Prod.fst).Nodup) :
    ((alist_erase m k).map Prod.fst).Nodup :=
  hnd.sublist ((alist_erase_sublist m k).map Prod.fst)

theorem alist_erase_erasedFrom {m : Disk} (k : Path)
    (hnd : (m.map Prod.fst).Nodup) : ErasedFrom (alist_erase m k) m := by
  intro k2
  by_cases h : k2 = k
  · exact Or.inr (h ▸ alist_erase_get_self m k hnd)
  · exact Or.inl (alist_erase_get_ne m k k2 h)

/-- One file-removal attempt only erases bindings and keeps disk
well-formedness. -/
theorem try_to_remove_file_step (fs : Disk) (p : Path)
    (hnd : (fs.map Prod.fst).Nodup) :
    ErasedFrom (FileBuilder.try_to_remove_file fs p).1 fs ∧
      (((FileBuilder.try_to_remove_file fs p).1.map Prod.fst)).Nodup := by
  rw [FileBuilder.try_to_remove_file]
  match hget : alist_get fs p with
  | some (.file j) =>
      exact ⟨alist_erase_erasedFrom p hnd, alist_erase_nodup p hnd⟩
  | some .dir => exact ⟨erasedFrom_refl fs, hnd⟩
  | none => exact ⟨erasedFrom_refl fs, hnd⟩

/-- One `os.rmdir` attempt only erases bindings and keeps disk
well-formedness. -/
theorem rmdir_if_empty_step (fs : Disk) (p : Path)
    (hnd : (fs.map Prod.fst).Nodup) :
    ErasedFrom (rmdir_if_empty fs p).1 fs ∧
      (((rmdir_if_empty fs p).1.map Prod.fst)).Nodup := by
  rw [rmdir_if_empty]
  match hget : alist_get fs p with
  | some (.file j) => exact ⟨erasedFrom_refl fs, hnd⟩
  | some .dir =>
      simp only
      by_cases hne : fs.any (fun e => p.isPrefixOf e.1 && decide (e.1 ≠ p))
      · simp only [hne, if_pos]
        exact ⟨erasedFrom_refl fs, hnd⟩
      · simp only [hne, if_neg]
        exact ⟨alist_erase_erasedFrom p hnd, alist_erase_nodup p hnd⟩
  | none => exact ⟨erasedFrom_refl fs, hnd⟩

/-- The created-files removal loop only erases bindings. -/
theorem remove_files_step (toPath : String → Path) :
    ∀ (names : List String) (fs : Disk), (fs.map Prod.fst).Nodup →
      ErasedFrom (remove_files toPath fs names).1 fs ∧
        (((remove_files toPath fs names).1.map Prod.fst)).Nodup := by
  intro names
  induction names with
  | nil => intro fs hnd; exact ⟨erasedFrom_refl fs, hnd⟩
  | cons n rest ih =>
      intro fs hnd
      rw [remove_files]
      have h1 := try_to_remove_file_step fs (toPath n) hnd
      have h2 := ih (FileBuilder.try_to_remove_file fs (toPath n)).1 h1.2
      exact ⟨erasedFrom_trans h2.1 h1.1, h2.2⟩

/-- The empty-directory removal loop only erases bindings. -/
theorem remove_dirs_loop_step :
    ∀ (ds : List Path) (fs : Disk), (fs.map Prod.fst).Nodup →
      ErasedFrom (remove_dirs_loop fs ds).1 fs ∧
        (((remove_dirs_loop fs ds).1.map Prod.fst)).Nodup := by
  intro ds
  induction ds with
  | nil => intro fs hnd; exact ⟨erasedFrom_refl fs, hnd⟩
  | cons d rest ih =>
      intro fs hnd
      rw [remove_dirs_loop]
      have h1 := rmdir_if_empty_step fs d hnd
      have h2 := ih (rmdir_if_empty fs d).1 h1.2
      exact ⟨erasedFrom_trans h2.1 h1.1, h2.2⟩

/-- After the removal phase the cache file is gone: the phase only erases
bindings, and its middle step erases the cache path (which at that point
is either untouched — still the regular cache file — or already erased). -/
theorem clean_removals_cache_gone (toPath : String → Path) (fs : Disk)
    (cf : String) (c : Cache) (j : Json)
    (hnd : (fs.map Prod.fst).Nodup)
    (hget : alist_get fs (toPath cf) = some (.file j)) :
    alist_get (clean_removals toPath fs cf c).1 (toPath cf) = none := by
  have h1 := remove_files_step toPath c.created_files fs hnd
  have hmid : alist_get
      (FileBuilder.try_to_remove_file
        (remove_files toPath fs c.created_files).1 (toPath cf)).1
      (toPath cf) = none := by
    rw [FileBuilder.try_to_remove_file]
    rcases h1.1 (toPath cf) with hsame | hnone
    · rw [hsame, hget]
      exact alist_erase_get_self _ _ h1.2
    · rw [hnone]
      exact hnone
  have h2 := try_to_remove_file_step
    (remove_files toPath fs c.created_files).1 (toPath cf) h1.2
  have h3 := remove_dirs_loop_step
    ((c.created_dirs.mergeSort (fun a b => decide (b.length ≤ a.length))).map
      toPath)
    (FileBuilder.try_to_remove_file
      (remove_files toPath fs c.created_files).1 (toPath cf)).1 h2.2
  show alist_get (remove_dirs_loop
      (FileBuilder.try_to_remove_file
        (remove_files toPath fs c.created_files).1 (toPath cf)).1
      ((c.created_dirs.mergeSort
        (fun a b => decide (b.length ≤ a.length))).map toPath)).1
    (toPath cf) = none
  rcases h3.1 (toPath cf) with hsame | hnone
  · exact hsame.trans hmid
  · exact hnone

/-- Claim C9: on a well-formed disk, a successful `clean` removes the
cache file, so a second `clean` with the same cache filename and build
name finds no cache file, succeeds, leaves the disk exactly as the first
left it, and removes nothing. -/
theorem C9_clean_clean (ncc : String → String) (toPath : String → Path)
    (fs : Disk) (cf : String) (bn : Option String) (fs1 : Disk)
    (rem : List Path) (hnd : (fs.map Prod.fst).Nodup)
    (h : FileBuilder.clean ncc toPath fs cf bn = .ok (fs1, rem)) :
    FileBuilder.clean ncc toPath fs1 cf bn = .ok (fs1, []) := by
  rw [FileBuilder.clean] at h
  match hget : alist_get fs (toPath cf) with
  | none =>
      simp only [hget, Except.ok.injEq, Prod.mk.injEq] at h
      obtain ⟨rfl, -⟩ := h
      rw [FileBuilder.clean, hget]
  | some .dir =>
      simp [hget] at h
  | some (.file j) =>
      simp only [hget] at h
      match hread : Cache.read_immutable ncc j with
      | .error e =>
          simp [hread] at h
      | .ok c =>
          simp only [hread] at h
          have hfs1 : fs1 = (clean_removals toPath fs cf c).1 := by
            cases bn with
            | none =>
                simp only [Except.ok.injEq] at h
                exact (congrArg Prod.fst h).symm
            | some b =>
                have h2 : (if c.build_name = b then
                    (Except.ok (clean_removals toPath fs cf c) :
                      Except CleanError (Disk × List Path))
                  else .error .build_name_mismatch) = .ok (fs1, rem) := h
                by_cases hb : c.build_name = b
                · rw [if_pos hb] at h2
                  simp only [Except.ok.injEq] at h2
                  exact (congrArg Prod.fst h2).symm
                · rw [if_neg hb] at h2
                  simp at h2
          have hgone : alist_get fs1 (toPath cf) = none := by
            rw [hfs1]
            exact clean_removals_cache_gone toPath fs cf c j hnd hget
          rw [FileBuilder.clean, hgone]

theorem C9_witness :
    ((([(["c"], DiskEntry.file (Json.dict [("buildName", .str "b"),
        ("cacheFileVersion", .null), ("createdDirs", .list []),
        ("funcVersions", .dict []), ("operationVersions", .dict []),
        ("rootOperations", .list []),
        ("software", .str "file_builder")]))] : Disk).map Prod.fst).Nodup ∧
      FileBuilder.clean id (fun s => [s])
        [(["c"], DiskEntry.file (Json.dict [("buildName", .str "b"),
          ("cacheFileVersion", .null), ("createdDirs", .list []),
          ("funcVersions", .dict []), ("operationVersions", .dict []),
          ("rootOperations", .list []),
          ("software", .str "file_builder")]))] "c" (some "b") =
        .ok ([], [["c"]])) ∧
    FileBuilder.clean id (fun s => [s]) [] "c" (some "b") =
      .ok ([], []) := by
  have hnd : (([(["c"], DiskEntry.file (Json.dict [("buildName", .str "b"),
      ("cacheFileVersion", .null), ("createdDirs", .list []),
      ("funcVersions", .dict []), ("operationVersions", .dict []),
      ("rootOperations", .list []),
      ("software", .str "file_builder")]))] : Disk).map Prod.fst).Nodup := by
    simp
  have hread : Cache.read_immutable id (Json.dict [("buildName", .str "b"),
      ("cacheFileVersion", .null), ("createdDirs", .list []),
      ("funcVersions", .dict []), ("operationVersions", .dict []),
      ("rootOperations", .list []),
      ("software", .str "file_builder")]) =
      .ok { build_name := "b", files := [], norm_cased_files := [],
            subbuilds := [], created_dirs := [], func_versions := .dict [],
            operation_versions := .dict [] } := by
    rw [Cache.read_immutable]
    simp [dict_get, operations_from_json, Cache.mkDerived, strings_of,
      JsonUtil.is_equal, collect_list]
  have hrun : FileBuilder.clean id (fun s => [s])
      [(["c"], DiskEntry.file (Json.dict [("buildName", .str "b"),
        ("cacheFileVersion", .null), ("createdDirs", .list []),
        ("funcVersions", .dict []), ("operationVersions", .dict []),
        ("rootOperations", .list []),
        ("software", .str "file_builder")]))] "c" (some "b") =
      .ok ([], [["c"]]) := by
    rw [FileBuilder.clean]
    simp [alist_get, hread, clean_removals, remove_files,
      FileBuilder.try_to_remove_file, alist_erase, Cache.created_files,
      FileBuilder.remove_empty_dirs, remove_dirs_loop]
  exact ⟨⟨hnd, hrun⟩,
    C9_clean_clean id (fun s => [s]) _ "c" (some "b") _ _ hnd hrun⟩

end FB
